import Mathlib

/-!
Shallow embedding of the srt-go sandbox core and proofs about it.

The embedding covers the domain filter (internal/network), the glob
pattern compiler (internal/filesystem/globs.go), the Seatbelt profile
generator and validator (internal/sandbox/seatbelt.go), violation
classification (internal/sandbox/violation_logger.go) and the proxy
environment decision of the sandbox manager.  Go strings are modelled
as `List Char`; fallible Go functions returning `(T, error)` are
modelled as `Option`-valued functions.  Filesystem-dependent path
normalisation (`NormalisePath`) is a parameter `norm` of the
definitions that call it.
-/

namespace SrtGo

/-- The ASCII characters recognised by Go `unicode.IsSpace`. -/
def isSpaceGo (c : Char) : Bool :=
  c == ' ' || c == '\t' || c == '\n' || c == '\x0b' || c == '\x0c' || c == '\r'

/-- Go `strings.Contains`: `needle` occurs as a contiguous substring of `hay`. -/
def containsSub (hay needle : List Char) : Bool :=
  hay.tails.any (fun t => needle.isPrefixOf t)

/-! ### Domain filter (internal/network, DomainFilter) -/

/-- Go `strings.TrimSpace`, restricted to the ASCII space characters. -/
def trimSpace (l : List Char) : List Char :=
  ((l.dropWhile isSpaceGo).reverse.dropWhile isSpaceGo).reverse

/-- The prefix of `l` before its last `':'`, or `none` when `l` has no `':'`
(`strings.LastIndex(domain, ":")` followed by the slice `domain[:idx]`). -/
def cutLastColon : List Char → Option (List Char)
  | [] => none
  | c :: rest =>
    match cutLastColon rest with
    | some r => some (c :: r)
    | none => if c == ':' then some [] else none

/-- Port-stripping step of `normaliseDomain`. -/
def stripPort (l : List Char) : List Char := (cutLastColon l).getD l

/-- Go `strings.ToLower` (character-wise). -/
def toLowerList (l : List Char) : List Char := l.map Char.toLower

/-- `normaliseDomain` from the domain filter: strip a trailing `:port`,
trim surrounding space, lowercase. -/
def normaliseDomain (l : List Char) : List Char := toLowerList (trimSpace (stripPort l))

/-- Fuelled matcher for `gobwas/glob` patterns over `*`, `?` and literal
characters, the shapes the domain filter feeds it (a domain pattern is
compiled as a glob exactly when it contains `*`). -/
def gmFuel : Nat → List Char → List Char → Bool
  | 0, _, _ => false
  | _ + 1, [], s => s.isEmpty
  | f + 1, '*' :: ps, s =>
    gmFuel f ps s || (match s with | [] => false | _ :: s' => gmFuel f ('*' :: ps) s')
  | f + 1, '?' :: ps, s => (match s with | [] => false | _ :: s' => gmFuel f ps s')
  | f + 1, c :: ps, s => (match s with | [] => false | d :: s' => c == d && gmFuel f ps s')

/-- Glob matching with enough fuel (every `gmFuel` step shrinks
`pattern.length + input.length`). -/
def domainGlobMatch (p s : List Char) : Bool := gmFuel (p.length + s.length + 1) p s

/-- `DomainPattern`: a compiled domain pattern (the `compiled glob.Glob`
field is represented by `domainGlobMatch` applied to `pattern`). -/
structure DomainPattern where
  pattern : List Char
  isGlob : Bool
deriving DecidableEq

/-- `DomainPattern.Matches`. -/
def DomainPattern.Matches (p : DomainPattern) (domain : List Char) : Bool :=
  let d := normaliseDomain domain
  if p.isGlob then domainGlobMatch p.pattern d else d == p.pattern

/-- `compileDomainPattern`: lowercase and trim, then mark as glob when the
pattern contains `*`.  (`glob.Compile` cannot fail on `*`-and-literal
patterns, so compilation is total here.) -/
def compileDomainPattern (pat : List Char) : DomainPattern :=
  let p := toLowerList (trimSpace pat)
  if p.contains '*' then ⟨p, true⟩ else ⟨p, false⟩

/-- `DomainFilter`. -/
structure DomainFilter where
  allowed : List DomainPattern
  denied : List DomainPattern
  defaultPolicy : List Char
deriving DecidableEq

/-- `NewDomainFilter`: an invalid default policy falls back to `"allow"`. -/
def NewDomainFilter (defaultPolicy : List Char)
    (allowedDomains deniedDomains : List (List Char)) : DomainFilter :=
  let dp := if defaultPolicy = ("allow".data) ∨ defaultPolicy = ("deny".data)
    then defaultPolicy else ("allow".data)
  ⟨allowedDomains.map compileDomainPattern, deniedDomains.map compileDomainPattern, dp⟩

/-- `DomainFilter.IsAllowed`: denied list first, then allowed list, then the
default policy.  The Go `for`-loops with early `return` are the `List.any`
tests. -/
def DomainFilter.IsAllowed (f : DomainFilter) (domain : List Char) : Bool :=
  let d := normaliseDomain domain
  if f.denied.any (fun p => p.Matches d) then false
  else if f.allowed.any (fun p => p.Matches d) then true
  else f.defaultPolicy == ("allow".data)

/-! ### Violation classification (internal/sandbox/violation_logger.go) -/

/-- A sandbox violation record (`Violation`). -/
structure Violation where
  process : List Char
  message : List Char
  timestamp : Nat
  target : List Char
  operation : List Char
deriving DecidableEq

/-- Go `strings.Fields`: the maximal whitespace-free runs of `l`. -/
def fieldsGo (l : List Char) : List (List Char) :=
  (l.splitOnP isSpaceGo).filter (fun w => !w.isEmpty)

/-- `ViolationMonitor.parseViolation`: pick the operation from the first
matching marker (checked in the order file-read, file-write, network, each by
substring containment) leaving it unchanged when none matches, and set the
target to the last whitespace-delimited token of the message when the message
has at least one token. -/
def parseViolation (v : Violation) : Violation :=
  let msg := v.message
  let op :=
    if containsSub msg ("file-read".data) then ("file-read".data)
    else if containsSub msg ("file-write".data) then ("file-write".data)
    else if containsSub msg ("network".data) then ("network".data)
    else v.operation
  let tgt :=
    match (fieldsGo msg).getLast? with
    | some t => t
    | none => v.target
  { v with operation := op, target := tgt }

/-- Go map lookup, modelled on an association list with distinct keys. -/
def lookupKey : List (List Char × List (List Char)) → List Char → Option (List (List Char))
  | [], _ => none
  | (k', v) :: rest, k => if k' = k then some v else lookupKey rest k

/-- `ShouldIgnoreViolation`: first the entry keyed by the violating process,
then the wildcard `*` entry; each pattern is tested by substring containment
against the violation's target. -/
def ShouldIgnoreViolation (v : Violation)
    (ignoreMap : List (List Char × List (List Char))) : Bool :=
  (match lookupKey ignoreMap v.process with
   | some patterns => patterns.any (fun pat => containsSub v.target pat)
   | none => false)
  ||
  (match lookupKey ignoreMap ("*".data) with
   | some patterns => patterns.any (fun pat => containsSub v.target pat)
   | none => false)

/-! ### Proxy environment decision (sandbox Manager, needsNetworkProxy) -/

/-- The network section of the resolved configuration. -/
structure NetworkConfig where
  defaultPolicy : List Char
  allowedDomains : List (List Char)
  deniedDomains : List (List Char)
  httpProxyPort : Nat
  socksProxyPort : Nat

/-- The slice of the resolved configuration the proxy decision reads. -/
structure Config where
  network : NetworkConfig

/-- `needsNetworkProxy`: proxies are required when the allow list is non-empty
(filtering mode) or the default policy is `allow` (deny-list mode). -/
def needsNetworkProxy (cfg : Config) : Bool :=
  if cfg.network.allowedDomains.length > 0 then true
  else if cfg.network.defaultPolicy == ("allow".data) then true
  else false

/-- The environment `Manager.Execute` sets on the confined child: the parent
environment, the correlation id, and — exactly when both proxies exist, which
`NewManager` arranges precisely when `needsNetworkProxy` holds — the three
proxy variables at the configured ports. -/
def executeEnv (base : List (List Char)) (cfg : Config) (commandID : List Char) :
    List (List Char) :=
  base ++ [("SRT_COMMAND_ID=".data) ++ commandID] ++
  (if needsNetworkProxy cfg then
    [("HTTP_PROXY=http://localhost:".data) ++ ((Nat.repr cfg.network.httpProxyPort).data),
     ("HTTPS_PROXY=http://localhost:".data) ++ ((Nat.repr cfg.network.httpProxyPort).data),
     ("ALL_PROXY=socks5://localhost:".data) ++ ((Nat.repr cfg.network.socksProxyPort).data)]
  else [])

/-- An environment entry for one of `HTTP_PROXY`, `HTTPS_PROXY`, `ALL_PROXY`. -/
def isProxyVar (e : List Char) : Bool :=
  ("HTTP_PROXY=".data).isPrefixOf e || ("HTTPS_PROXY=".data).isPrefixOf e
    || ("ALL_PROXY=".data).isPrefixOf e

/-! ### Profile validator (internal/sandbox/seatbelt.go, ValidateProfile) -/

/-- The parenthesis counter behind `hasBalancedParentheses`: scan the string
keeping a count, failing (`none`) as soon as a `)` would take the count below
zero, and otherwise returning the final count. -/
def parenRun : Nat → List Char → Option Nat
  | c, [] => some c
  | c, '(' :: rest => parenRun (c + 1) rest
  | c, ')' :: rest => if c == 0 then none else parenRun (c - 1) rest
  | c, _ :: rest => parenRun c rest

/-- `hasBalancedParentheses`: the counter never dips below zero and ends at
zero. -/
def hasBalancedParentheses (l : List Char) : Bool :=
  parenRun 0 l == some 0

/-- The three static checks of `ValidateProfile`, in source order (`none`
means the static phase passes).  The `cat` file read is modelled by handing
over the profile text directly. -/
def validateStaticChecks (profile : List Char) : Option (List Char) :=
  if !(containsSub profile ("(version 1)".data)) then
    some ("profile missing (version 1) declaration".data)
  else if !(hasBalancedParentheses profile) then
    some ("profile has unbalanced parentheses".data)
  else if !(containsSub profile ("(deny ".data) || containsSub profile ("(allow ".data)) then
    some ("profile missing deny/allow statements".data)
  else none

/-- `ValidateProfile`, with the dynamic phase (the live `sandbox-exec` run on
`/usr/bin/true`) abstracted as a function `dyn` of the profile text. -/
def ValidateProfile (dyn : List Char → Option (List Char)) (profile : List Char) :
    Option (List Char) :=
  match validateStaticChecks profile with
  | some e => some e
  | none => dyn profile

/-! ### Pattern compiler (internal/filesystem/globs.go, GlobToRegex)

The compiler walks the pattern byte by byte (modelled character by
character).  The walk is a single structural recursion over the remaining
pattern with a mode recording whether the scan is inside a bracket class or
a brace group; the Go index-based scans for `]` and the matching `}` are the
corresponding accumulating modes.  Recursive compilation of brace
alternatives goes through an explicit fuel parameter; `GlobToRegex` supplies
fuel `pattern.length + 1`, one unit per level of brace recursion, which can
only run out if the abstracted `NormalisePath` keeps injecting fresh brace
groups (inputs on which the Go original would recurse forever). -/

/-- `ContainsGlob`: the path contains one of `* ? [ {`. -/
def ContainsGlob (l : List Char) : Bool :=
  l.any (fun c => c == '*' || c == '?' || c == '[' || c == '\x7b')

/-- Body of a bracket class: the characters before the first `]`, and the
rest after it; `none` when the class is unclosed. -/
def splitClass : List Char → Option (List Char × List Char)
  | [] => none
  | ']' :: rest => some ([], rest)
  | c :: rest =>
    match splitClass rest with
    | none => none
    | some (pre, post) => some (c :: pre, post)

/-- Body of a brace group at nesting depth `d`: the characters before the
matching `}`, and the rest after it; `none` when the group is unclosed. -/
def splitBrace : Nat → List Char → Option (List Char × List Char)
  | _, [] => none
  | d, c :: rest =>
    if c == '\x7b' then
      match splitBrace (d + 1) rest with
      | none => none
      | some (i, r) => some (c :: i, r)
    else if c == '\x7d' then
      if d == 0 then some ([], rest)
      else match splitBrace (d - 1) rest with
        | none => none
        | some (i, r) => some (c :: i, r)
    else
      match splitBrace d rest with
      | none => none
      | some (i, r) => some (c :: i, r)

/-- The regex metacharacters the compiler escapes with a backslash. -/
def escapedChars : List Char := ['.', '+', '^', '$', '(', ')', '|', '\\']

/-- `strings.TrimPrefix(converted, "^")`. -/
def stripCaret : List Char → List Char
  | '^' :: rest => rest
  | l => l

/-- `strings.TrimSuffix(converted, "$")`. -/
def stripDollar (l : List Char) : List Char :=
  if l.getLast? == some '$' then l.dropLast else l

/-- Both anchor strips, as applied to a recursively compiled alternative. -/
def stripAnchors (l : List Char) : List Char := stripDollar (stripCaret l)

/-- Scanner mode: top level, inside a bracket class (with the class body so
far, reversed), or inside a brace group (with its depth and body so far,
reversed). -/
inductive ScanMode where
  | normal : ScanMode
  | inClass : List Char → ScanMode
  | inBrace : Nat → List Char → ScanMode

/-- Glue for a finished brace group: split the body on every comma (the Go
`strings.Split`, not depth-aware), compile each alternative with `compile`,
strip its anchors, and join with `|` inside a regex group. -/
def braceResult (compile : List Char → Option (List Char))
    (inner : List Char) (tail : Option (List Char)) : Option (List Char) :=
  match (inner.splitOn ',').mapM (fun part => (compile part).map stripAnchors) with
  | none => none
  | some alts =>
    match tail with
    | none => none
    | some t => some ('(' :: (List.intercalate ['|'] alts ++ ')' :: t))

/-- The character-by-character walk of `GlobToRegex`, with recursive
compilation of brace alternatives abstracted as `compile`. -/
def globScan (compile : List Char → Option (List Char)) :
    ScanMode → List Char → Option (List Char)
  | .normal, [] => some []
  | .normal, '*' :: '*' :: '/' :: rest =>
    (globScan compile .normal rest).map (fun t => (".*".data) ++ t)
  | .normal, '*' :: '*' :: rest =>
    (globScan compile .normal rest).map (fun t => (".*".data) ++ t)
  | .normal, '*' :: rest =>
    (globScan compile .normal rest).map (fun t => ("[^/]*".data) ++ t)
  | .normal, '?' :: rest =>
    (globScan compile .normal rest).map (fun t => ("[^/]".data) ++ t)
  | .normal, '[' :: rest => globScan compile (.inClass []) rest
  | .normal, '\x7b' :: rest => globScan compile (.inBrace 0 []) rest
  | .normal, c :: rest =>
    if escapedChars.contains c then
      (globScan compile .normal rest).map (fun t => '\\' :: c :: t)
    else
      (globScan compile .normal rest).map (fun t => c :: t)
  | .inClass _, [] => none
  | .inClass acc, ']' :: rest =>
    (globScan compile .normal rest).map (fun t => '[' :: (acc.reverse ++ ']' :: t))
  | .inClass acc, c :: rest => globScan compile (.inClass (c :: acc)) rest
  | .inBrace _ _, [] => none
  | .inBrace d acc, c :: rest =>
    if c == '\x7b' then globScan compile (.inBrace (d + 1) (c :: acc)) rest
    else if c == '\x7d' then
      if d == 0 then braceResult compile acc.reverse (globScan compile .normal rest)
      else globScan compile (.inBrace (d - 1) (c :: acc)) rest
    else globScan compile (.inBrace d (c :: acc)) rest

/-- Fuelled `GlobToRegex`: normalise non-glob patterns through `norm`, scan,
and anchor the result at both ends. -/
def globCompileFuel (norm : List Char → Option (List Char)) :
    Nat → List Char → Option (List Char)
  | 0, _ => none
  | fuel + 1, p =>
    match (if ContainsGlob p then some p else norm p) with
    | none => none
    | some q =>
      match globScan (fun part => globCompileFuel norm fuel part) ScanMode.normal q with
      | none => none
      | some body => some ('^' :: (body ++ ['$']))

/-- `GlobToRegex`, with `NormalisePath` abstracted as `norm`. -/
def GlobToRegex (norm : List Char → Option (List Char)) (p : List Char) :
    Option (List Char) :=
  globCompileFuel norm (p.length + 1) p

/-- The identity path normaliser, standing in for `NormalisePath` on a host
where the given paths are already absolute, tilde-free and symlink-free. -/
def idNorm : List Char → Option (List Char) := fun l => some l

/-! ### Profile generator (internal/sandbox/seatbelt.go, GenerateSeatbeltProfile) -/

/-- The Go `for` loop over one path list: for each entry, a `regex` rule via
the pattern compiler when the entry contains glob syntax, otherwise a literal
`subpath` rule; the first compilation failure aborts.  `head` is the rule
head, e.g. `deny file-read*`. -/
def emitPathRules (norm : List Char → Option (List Char)) (head : List Char) :
    List (List Char) → Option (List Char)
  | [] => some []
  | path :: rest =>
    match (if ContainsGlob path then
        match GlobToRegex norm path with
        | none => none
        | some regex =>
          some (('(' :: head) ++ (" (regex #\"".data) ++ regex ++ ("\"))\n".data))
      else
        some (('(' :: head) ++ (" (subpath \"".data) ++ path ++ ("\"))\n".data))) with
    | none => none
    | some line =>
      match emitPathRules norm head rest with
      | none => none
      | some rest' => some (line ++ rest')

/-- `GenerateSeatbeltProfile`, transcribed append by append from the Go
builder (`sb.WriteString` chain). -/
def GenerateSeatbeltProfile (norm : List Char → Option (List Char))
    (httpProxyPort socksProxyPort : Nat) (enableProxy : Bool)
    (denyReadPaths allowWritePaths denyWritePaths allowUnlinkPaths : List (List Char))
    (allowFork allowSysctlRead allowMachLookup allowPosixShm : Bool) :
    Option (List Char) :=
  let sb1 := ("(version 1)\n\n".data)
    ++ ("; Process operations\n".data) ++ ("(allow process-exec*)\n".data)
    ++ (if allowFork then ("(allow process-fork)\n".data) else [])
    ++ (if allowSysctlRead then ("(allow sysctl-read)\n".data) else [])
    ++ (if allowMachLookup then ("(allow mach-lookup)\n".data) else [])
    ++ (if allowPosixShm then ("(allow ipc-posix-shm*)\n".data) else [])
    ++ ("\n".data)
  let sb2 := sb1 ++ (if enableProxy then
      ("; Network - deny all except proxies\n".data) ++ ("(deny network*)\n".data)
      ++ ("(allow network* (remote ip \"localhost:".data)
        ++ ((Nat.repr httpProxyPort).data) ++ ("\"))\n".data)
      ++ ("(allow network* (remote ip \"localhost:".data)
        ++ ((Nat.repr socksProxyPort).data) ++ ("\"))\n".data)
      ++ ("\n".data)
    else ("; Network - deny all\n".data) ++ ("(deny network*)\n\n".data))
  let sb3 := sb2 ++ ("; Filesystem reads - allow by default\n".data)
    ++ ("(allow file-read*)\n\n".data)
  match (if denyReadPaths.isEmpty then some [] else
      match emitPathRules norm ("deny file-read*".data) denyReadPaths with
      | none => none
      | some rules =>
        some (("; Deny specific read paths\n".data) ++ rules ++ ("\n".data))) with
  | none => none
  | some readDeny =>
    let sb4 := sb3 ++ readDeny ++ ("; Filesystem writes - deny by default\n".data)
      ++ ("(deny file-write*)\n\n".data)
    match (if allowWritePaths.isEmpty then some [] else
        match emitPathRules norm ("allow file-write*".data) allowWritePaths with
        | none => none
        | some rules =>
          some (("; Allow writes to specific paths\n".data) ++ rules ++ ("\n".data))) with
    | none => none
    | some writeAllow =>
      match (if denyWritePaths.isEmpty then some [] else
          match emitPathRules norm ("deny file-write*".data) denyWritePaths with
          | none => none
          | some rules =>
            some (("; Deny specific writes within allowed paths\n".data)
              ++ rules ++ ("\n".data))) with
      | none => none
      | some writeDeny =>
        let sb5 := sb4 ++ writeAllow ++ writeDeny
          ++ ("; File unlink/deletion - deny by default\n".data)
          ++ ("(deny file-write-unlink)\n\n".data)
        match (if allowUnlinkPaths.isEmpty then some [] else
            match emitPathRules norm ("allow file-write-unlink".data) allowUnlinkPaths with
            | none => none
            | some rules =>
              some (("; Allow unlink in specific paths\n".data) ++ rules ++ ("\n".data))) with
        | none => none
        | some unlinkAllow => some (sb5 ++ unlinkAllow)

/-! Spec-side description of the generated profile, written from the claim:
sections in a fixed order, each path entry compiled to a regex rule when it
contains glob syntax and to a literal subpath rule otherwise. -/

/-- Spec-side rule for one path entry. -/
def specPathRule (norm : List Char → Option (List Char)) (head path : List Char) :
    Option (List Char) :=
  if ContainsGlob path then
    (GlobToRegex norm path).map (fun regex =>
      ('(' :: head) ++ (" (regex #\"".data) ++ regex ++ ("\"))\n".data))
  else some (('(' :: head) ++ (" (subpath \"".data) ++ path ++ ("\"))\n".data))

/-- Spec-side rule list: one rule per entry, in list order. -/
def specPathRules (norm : List Char → Option (List Char)) (head : List Char)
    (paths : List (List Char)) : Option (List Char) :=
  (paths.mapM (specPathRule norm head)).map List.flatten

/-- Spec-side path section: comment header, rules, blank line; empty for an
empty list. -/
def specSection (norm : List Char → Option (List Char)) (header head : List Char)
    (paths : List (List Char)) : Option (List Char) :=
  if paths.isEmpty then some [] else
    (specPathRules norm head paths).map (fun r => header ++ r ++ ("\n".data))

/-- Spec-side process section: process-exec always granted, the four other
capabilities each gated by their boolean flag. -/
def specProcessSection (allowFork allowSysctlRead allowMachLookup allowPosixShm : Bool) :
    List Char :=
  ("; Process operations\n(allow process-exec*)\n".data)
  ++ (if allowFork then ("(allow process-fork)\n".data) else [])
  ++ (if allowSysctlRead then ("(allow sysctl-read)\n".data) else [])
  ++ (if allowMachLookup then ("(allow mach-lookup)\n".data) else [])
  ++ (if allowPosixShm then ("(allow ipc-posix-shm*)\n".data) else [])
  ++ ("\n".data)

/-- Spec-side network section: deny all network, then, only when the proxy is
enabled, allow the loopback host at each of the two proxy ports. -/
def specNetworkSection (httpProxyPort socksProxyPort : Nat) (enableProxy : Bool) :
    List Char :=
  if enableProxy then
    ("; Network - deny all except proxies\n(deny network*)\n".data)
    ++ ("(allow network* (remote ip \"localhost:".data)
      ++ ((Nat.repr httpProxyPort).data) ++ ("\"))\n".data)
    ++ ("(allow network* (remote ip \"localhost:".data)
      ++ ((Nat.repr socksProxyPort).data) ++ ("\"))\n".data)
    ++ ("\n".data)
  else ("; Network - deny all\n(deny network*)\n\n".data)

/-- Spec-side profile: the claimed section order — version, process grants,
network, reads (allow all then per-entry denies), writes (deny all, then all
allow rules, then all deny rules), deletion (deny all then per-entry
allows). -/
def specSeatbeltProfile (norm : List Char → Option (List Char))
    (httpProxyPort socksProxyPort : Nat) (enableProxy : Bool)
    (denyReadPaths allowWritePaths denyWritePaths allowUnlinkPaths : List (List Char))
    (allowFork allowSysctlRead allowMachLookup allowPosixShm : Bool) :
    Option (List Char) :=
  match specSection norm ("; Deny specific read paths\n".data)
      ("deny file-read*".data) denyReadPaths,
    specSection norm ("; Allow writes to specific paths\n".data)
      ("allow file-write*".data) allowWritePaths,
    specSection norm ("; Deny specific writes within allowed paths\n".data)
      ("deny file-write*".data) denyWritePaths,
    specSection norm ("; Allow unlink in specific paths\n".data)
      ("allow file-write-unlink".data) allowUnlinkPaths with
  | some readDeny, some writeAllow, some writeDeny, some unlinkAllow =>
    some (("(version 1)\n\n".data)
      ++ specProcessSection allowFork allowSysctlRead allowMachLookup allowPosixShm
      ++ specNetworkSection httpProxyPort socksProxyPort enableProxy
      ++ ("; Filesystem reads - allow by default\n(allow file-read*)\n\n".data)
      ++ readDeny
      ++ ("; Filesystem writes - deny by default\n(deny file-write*)\n\n".data)
      ++ writeAllow
      ++ writeDeny
      ++ ("; File unlink/deletion - deny by default\n(deny file-write-unlink)\n\n".data)
      ++ unlinkAllow)
  | _, _, _, _ => none

/-! ### A matcher for the compiler's output regex language

`GlobToRegex` emits regexes built from literal characters, `\c` escapes,
bracket classes (leading `^` negation, `a-b` ranges), `.`, a postfix `*` on
single-character atoms (only `[^/]*` and `.*` are produced), alternation
groups `(r1|r2|…)` from brace expansion, and the two anchors `^…$`.  The
matcher below interprets exactly this sublanguage with Go `regexp`
(RE2) semantics for match existence, by backtracking with explicit fuel;
every step shrinks `pattern.length + input.length`, so the fuel chosen by
`regexMatchString` always suffices. -/

/-- Membership in a bracket-class body: singletons and `a-b` ranges, a `-`
at the start or end standing for itself. -/
def classItems : List Char → Char → Bool
  | a :: '-' :: b :: rest, c => (decide (a ≤ c) && decide (c ≤ b)) || classItems rest c
  | a :: rest, c => a == c || classItems rest c
  | [], _ => false

/-- A bracket class: a leading `^` negates the item test. -/
def classPred (content : List Char) (c : Char) : Bool :=
  match content with
  | '^' :: rest => !(classItems rest c)
  | _ => classItems content c

/-- One single-character atom of the output language: an escape, a class, a
dot, or a literal; `none` on the structural characters `$ ( ) | *` and on a
dangling escape. -/
def parseAtom : List Char → Option ((Char → Bool) × List Char)
  | '\\' :: c :: rest => some ((fun d => d == c), rest)
  | '\\' :: [] => none
  | '[' :: rest =>
    (match splitClass rest with
     | none => none
     | some (content, after) => some (classPred content, after))
  | '.' :: rest => some ((fun _ => true), rest)
  | c :: rest =>
    if c == '$' || c == '(' || c == ')' || c == '|' || c == '*' then none
    else some ((fun d => d == c), rest)
  | [] => none

/-- Scan to the `)` closing the current group, skipping escapes, classes and
nested groups; returns the group body and the rest. -/
def scanGroup : Bool → Nat → List Char → Option (List Char × List Char)
  | _, _, [] => none
  | true, d, ']' :: rest =>
    (match scanGroup false d rest with
     | none => none
     | some (i, r) => some (']' :: i, r))
  | true, d, c :: rest =>
    (match scanGroup true d rest with
     | none => none
     | some (i, r) => some (c :: i, r))
  | false, d, '\\' :: c2 :: rest2 =>
    (match scanGroup false d rest2 with
     | none => none
     | some (i, r) => some ('\\' :: c2 :: i, r))
  | false, _, '\\' :: [] => none
  | false, d, '[' :: rest =>
    (match scanGroup true d rest with
     | none => none
     | some (i, r) => some ('[' :: i, r))
  | false, d, '(' :: rest =>
    (match scanGroup false (d + 1) rest with
     | none => none
     | some (i, r) => some ('(' :: i, r))
  | false, 0, ')' :: rest => some ([], rest)
  | false, d + 1, ')' :: rest =>
    (match scanGroup false d rest with
     | none => none
     | some (i, r) => some (')' :: i, r))
  | false, d, c :: rest =>
    (match scanGroup false d rest with
     | none => none
     | some (i, r) => some (c :: i, r))

/-- Prepend a character to the first alternative. -/
def consHead (c : Char) : List (List Char) → List (List Char)
  | [] => [[c]]
  | a :: as => (c :: a) :: as

/-- Split a group body on its top-level `|`s, skipping escapes, classes and
nested groups. -/
def splitAlts : Bool → Nat → List Char → List (List Char)
  | _, _, [] => [[]]
  | true, d, ']' :: rest => consHead ']' (splitAlts false d rest)
  | true, d, c :: rest => consHead c (splitAlts true d rest)
  | false, d, '\\' :: c2 :: rest2 => consHead '\\' (consHead c2 (splitAlts false d rest2))
  | false, _, '\\' :: [] => [['\\']]
  | false, d, '[' :: rest => consHead '[' (splitAlts true d rest)
  | false, d, '(' :: rest => consHead '(' (splitAlts false (d + 1) rest)
  | false, d, ')' :: rest => consHead ')' (splitAlts false (d - 1) rest)
  | false, 0, '|' :: rest => [] :: splitAlts false 0 rest
  | false, d + 1, '|' :: rest => consHead '|' (splitAlts false (d + 1) rest)
  | false, d, c :: rest => consHead c (splitAlts false d rest)

/-- The fuelled backtracking matcher: `reMatch f p s` holds when the regex
`p` matches a prefix of `s` (with `$` demanding the end of the input). -/
def reMatch : Nat → List Char → List Char → Bool
  | 0, _, _ => false
  | _ + 1, [], _ => true
  | f + 1, '$' :: rest, s => s.isEmpty && reMatch f rest s
  | f + 1, '(' :: rest, s =>
    (match scanGroup false 0 rest with
     | none => false
     | some (inner, after) =>
       (splitAlts false 0 inner).any (fun alt => reMatch f (alt ++ after) s))
  | f + 1, p, s =>
    (match parseAtom p with
     | none => false
     | some (pred, rest) =>
       match rest with
       | '*' :: rest2 =>
         reMatch f rest2 s ||
           (match s with
            | [] => false
            | c :: s' => pred c && reMatch f p s')
       | _ =>
         (match s with
          | [] => false
          | c :: s' => pred c && reMatch f rest s'))

/-- Full-string matching of a compiled regex, Go `regexp.MatchString`-style:
a regex anchored with a leading `^` must match from the start; otherwise a
match may begin at any position. -/
def regexMatchString (rx s : List Char) : Bool :=
  match rx with
  | '^' :: rest => reMatch (rest.length + s.length + 1) rest s
  | _ => s.tails.any (fun t => reMatch (rx.length + t.length + 1) rx t)

/-- `MatchGlob`: compile the glob, then test the path against the regex. -/
def MatchGlob (norm : List Char → Option (List Char)) (pattern path : List Char) :
    Option Bool :=
  match GlobToRegex norm pattern with
  | none => none
  | some rx => some (regexMatchString rx path)

/-! The non-glob branch: a glob-free pattern is normalised and then copied
literally, with regex metacharacters escaped; the compiled regex matches
exactly the normalised path itself. -/

/-- How the scanner copies a glob-free literal: every character is emitted
as itself, with the regex metacharacters backslash-escaped. -/
def escapeLit (l : List Char) : List Char :=
  (l.map (fun c => if escapedChars.contains c then ['\\', c] else [c])).flatten

/-- Shapes the scanner can emit into a regex body on a brace-free input:
escapes, closed bracket classes, and plain characters that are not special
to the group/alternation structure. -/
inductive CleanSeq : List Char → Prop where
  | nil : CleanSeq []
  | esc (c : Char) (rest : List Char) : CleanSeq rest → CleanSeq ('\\' :: c :: rest)
  | cls (content rest : List Char) : ']' ∉ content → CleanSeq rest →
      CleanSeq ('[' :: (content ++ ']' :: rest))
  | chr (c : Char) (rest : List Char) : c ≠ '\\' → c ≠ '[' → c ≠ '(' → c ≠ ')' →
      c ≠ '|' → CleanSeq rest → CleanSeq (c :: rest)

/-- Prepend a chunk to the first alternative of a split. -/
def prependAlt (b : List Char) : List (List Char) → List (List Char)
  | [] => [b]
  | a :: as => (b ++ a) :: as

/-! ### Theorems -/

theorem containsSub_nil (hay : List Char) : containsSub hay [] = true := by
  cases hay <;> simp [containsSub, List.tails_cons, List.isPrefixOf]

theorem containsSub_iff {hay needle : List Char} :
    containsSub hay needle = true ↔ ∃ t, t <:+ hay ∧ needle <+: t := by
  simp [containsSub, List.any_eq_true, List.mem_tails, List.isPrefixOf_iff_prefix]

theorem containsSub_append_left {a : List Char} (n : List Char) (b : List Char)
    (h : containsSub a n = true) : containsSub (a ++ b) n = true := by
  rw [containsSub_iff] at h ⊢
  obtain ⟨t, ⟨u, hu⟩, hp⟩ := h
  exact ⟨t ++ b, ⟨u, by rw [← List.append_assoc, hu]⟩,
    hp.trans (List.prefix_append t b)⟩

theorem containsSub_append_right (a : List Char) {b : List Char} (n : List Char)
    (h : containsSub b n = true) : containsSub (a ++ b) n = true := by
  rw [containsSub_iff] at h ⊢
  obtain ⟨t, ⟨u, hu⟩, hp⟩ := h
  exact ⟨t, ⟨a ++ u, by rw [List.append_assoc, hu]⟩, hp⟩

/-- C1: `IsAllowed` evaluates in the fixed order denied list → allowed list →
default policy: a denied match forces `false` regardless of the allow list; with
no denied match an allowed match forces `true`; with no match at all the result
is the default policy; in particular a filter whose default policy is `deny`
with an empty allow list rejects every domain, and one whose default policy is
`allow` with an empty deny list accepts every domain. -/
theorem IsAllowed_precedence (f : DomainFilter) (d : List Char) :
    ((∃ p ∈ f.denied, p.Matches (normaliseDomain d) = true) → f.IsAllowed d = false)
    ∧ ((∀ p ∈ f.denied, p.Matches (normaliseDomain d) = false) →
        (∃ p ∈ f.allowed, p.Matches (normaliseDomain d) = true) → f.IsAllowed d = true)
    ∧ ((∀ p ∈ f.denied, p.Matches (normaliseDomain d) = false) →
        (∀ p ∈ f.allowed, p.Matches (normaliseDomain d) = false) →
        f.IsAllowed d = (f.defaultPolicy == ("allow".data)))
    ∧ (f.defaultPolicy = ("deny".data) → f.allowed = [] → f.IsAllowed d = false)
    ∧ (f.defaultPolicy = ("allow".data) → f.denied = [] → f.IsAllowed d = true) := by
  refine ⟨?_, ?_, ?_, ?_, ?_⟩
  · intro h
    have hany : f.denied.any (fun p => p.Matches (normaliseDomain d)) = true :=
      List.any_eq_true.mpr (by simpa using h)
    simp [DomainFilter.IsAllowed, hany]
  · intro hden hall
    have hnot : f.denied.any (fun p => p.Matches (normaliseDomain d)) = false := by
      simp only [List.any_eq_false]
      intro p hp
      simp [hden p hp]
    have hany : f.allowed.any (fun p => p.Matches (normaliseDomain d)) = true :=
      List.any_eq_true.mpr (by simpa using hall)
    simp [DomainFilter.IsAllowed, hnot, hany]
  · intro hden hall
    have hnot : f.denied.any (fun p => p.Matches (normaliseDomain d)) = false := by
      simp only [List.any_eq_false]
      intro p hp
      simp [hden p hp]
    have hnot' : f.allowed.any (fun p => p.Matches (normaliseDomain d)) = false := by
      simp only [List.any_eq_false]
      intro p hp
      simp [hall p hp]
    simp [DomainFilter.IsAllowed, hnot, hnot']
  · intro hpol hempty
    simp [DomainFilter.IsAllowed, hempty, hpol]
  · intro hpol hempty
    simp [DomainFilter.IsAllowed, hempty, hpol]

/-- C1 witness: the deny-default corollary at a concrete filter and domain. -/
theorem IsAllowed_precedence_deny_default :
    DomainFilter.IsAllowed
      (NewDomainFilter ("deny".data) [] [("evil.com".data)]) ("example.com".data) = false :=
  (IsAllowed_precedence (NewDomainFilter ("deny".data) [] [("evil.com".data)])
    ("example.com".data)).2.2.2.1 (by decide) rfl

/-- C8 counterexample: a message containing none of the three operation
markers is left with its original (empty) operation; it is not classified as
`other`, contradicting the claim. -/
theorem parseViolation_not_other :
    (containsSub ("deny hello".data) ("file-read".data) = false
      ∧ containsSub ("deny hello".data) ("file-write".data) = false
      ∧ containsSub ("deny hello".data) ("network".data) = false)
    ∧ (parseViolation ⟨("p".data), ("deny hello".data), 0, [], []⟩).operation
        ≠ ("other".data) := by
  decide

/-- C8 (amended): classification checks the markers in the fixed order
file-read, file-write, network and assigns the operation of the first marker
contained in the message; when no marker is present the operation field is
left unchanged (in particular it is never set to `other`); the target becomes
the last whitespace-delimited token of the message when the message has one,
and is left unchanged otherwise. -/
theorem parseViolation_spec (v : Violation) :
    (containsSub v.message ("file-read".data) = true →
      (parseViolation v).operation = ("file-read".data))
    ∧ (containsSub v.message ("file-read".data) = false →
       containsSub v.message ("file-write".data) = true →
      (parseViolation v).operation = ("file-write".data))
    ∧ (containsSub v.message ("file-read".data) = false →
       containsSub v.message ("file-write".data) = false →
       containsSub v.message ("network".data) = true →
      (parseViolation v).operation = ("network".data))
    ∧ (containsSub v.message ("file-read".data) = false →
       containsSub v.message ("file-write".data) = false →
       containsSub v.message ("network".data) = false →
      (parseViolation v).operation = v.operation)
    ∧ (fieldsGo v.message = [] → (parseViolation v).target = v.target)
    ∧ (∀ t, (fieldsGo v.message).getLast? = some t → (parseViolation v).target = t) := by
  refine ⟨?_, ?_, ?_, ?_, ?_, ?_⟩
  · intro h1
    simp [parseViolation, h1]
  · intro h1 h2
    simp [parseViolation, h1, h2]
  · intro h1 h2 h3
    simp [parseViolation, h1, h2, h3]
  · intro h1 h2 h3
    simp [parseViolation, h1, h2, h3]
  · intro h
    simp [parseViolation, h]
  · intro t h
    simp [parseViolation, h]

/-- C8 witness: the amended claim applied to a concrete violation whose
message carries the file-read marker. -/
theorem parseViolation_spec_witness :
    (parseViolation ⟨("p".data), ("file-read data /etc/hosts".data), 0, [], []⟩).operation
      = ("file-read".data) :=
  (parseViolation_spec ⟨("p".data), ("file-read data /etc/hosts".data), 0, [], []⟩).1
    (by decide)

/-- C10: if the pattern list stored under the violation's process name, or
under the wildcard key `*`, contains the empty string, then
`ShouldIgnoreViolation` returns `true` for that violation regardless of its
target, because substring matching always succeeds for the empty pattern. -/
theorem ShouldIgnoreViolation_empty_pattern (v : Violation)
    (m : List (List Char × List (List Char)))
    (h : (∃ ps, lookupKey m v.process = some ps ∧ ([] : List Char) ∈ ps)
       ∨ (∃ ps, lookupKey m ("*".data) = some ps ∧ ([] : List Char) ∈ ps)) :
    ShouldIgnoreViolation v m = true := by
  rcases h with ⟨ps, hl, hm⟩ | ⟨ps, hl, hm⟩
  · rw [ShouldIgnoreViolation, hl]
    rw [Bool.or_eq_true]
    exact Or.inl (List.any_eq_true.mpr ⟨[], hm, containsSub_nil _⟩)
  · rw [ShouldIgnoreViolation, hl]
    rw [Bool.or_eq_true]
    exact Or.inr (List.any_eq_true.mpr ⟨[], hm, containsSub_nil _⟩)

/-- C10 witness: a single empty pattern under the wildcard key suppresses a
violation with an arbitrary target. -/
theorem ShouldIgnoreViolation_empty_pattern_witness :
    ShouldIgnoreViolation ⟨("bash".data), [], 0, ("/usr/bin/ssh-agent".data), []⟩
      [(("*".data), [([] : List Char)])] = true :=
  ShouldIgnoreViolation_empty_pattern _ _ (Or.inr ⟨[([] : List Char)], by decide, by decide⟩)

theorem needsNetworkProxy_iff (cfg : Config) :
    needsNetworkProxy cfg = true ↔
      (cfg.network.allowedDomains ≠ [] ∨ cfg.network.defaultPolicy = ("allow".data)) := by
  by_cases h1 : cfg.network.allowedDomains = []
  · simp [needsNetworkProxy, h1]
  · have : cfg.network.allowedDomains.length > 0 := by
      cases h : cfg.network.allowedDomains with
      | nil => exact absurd h h1
      | cons a as => simp
    simp [needsNetworkProxy, this, h1]

/-- C9: the three proxy environment variables are present on the confined
child exactly when network enforcement is active — the allowed-domains list is
non-empty or the network default policy is `allow`; when the network is fully
blocked (default policy not `allow`, no allowed domains), no entry of the
child's environment is a proxy variable, provided the inherited parent
environment carries none. -/
theorem executeEnv_proxy_iff (base : List (List Char)) (cfg : Config) (commandID : List Char)
    (hbase : ∀ e ∈ base, isProxyVar e = false) :
    ((∃ e ∈ executeEnv base cfg commandID, isProxyVar e = true) ↔
      (cfg.network.allowedDomains ≠ [] ∨ cfg.network.defaultPolicy = ("allow".data)))
    ∧ (needsNetworkProxy cfg = true →
        (("HTTP_PROXY=http://localhost:".data) ++ ((Nat.repr cfg.network.httpProxyPort).data))
            ∈ executeEnv base cfg commandID
        ∧ (("HTTPS_PROXY=http://localhost:".data) ++ ((Nat.repr cfg.network.httpProxyPort).data))
            ∈ executeEnv base cfg commandID
        ∧ (("ALL_PROXY=socks5://localhost:".data) ++ ((Nat.repr cfg.network.socksProxyPort).data))
            ∈ executeEnv base cfg commandID)
    ∧ (cfg.network.defaultPolicy ≠ ("allow".data) → cfg.network.allowedDomains = [] →
        ∀ e ∈ executeEnv base cfg commandID, isProxyVar e = false) := by
  have hsrt : ∀ commandID : List Char,
      isProxyVar (("SRT_COMMAND_ID=".data) ++ commandID) = false := fun _ => rfl
  refine ⟨?_, ?_, ?_⟩
  · rw [← needsNetworkProxy_iff]
    constructor
    · rintro ⟨e, he, hpv⟩
      by_contra hn
      rw [Bool.not_eq_true] at hn
      simp [executeEnv, hn] at he
      rcases he with he | he
      · rw [hbase e he] at hpv
        exact Bool.false_ne_true hpv
      · subst he
        exact Bool.false_ne_true ((hsrt commandID).symm.trans hpv)
    · intro hn
      refine ⟨("HTTP_PROXY=http://localhost:".data) ++ ((Nat.repr cfg.network.httpProxyPort).data),
        ?_, rfl⟩
      simp [executeEnv, hn]
  · intro hn
    refine ⟨?_, ?_, ?_⟩ <;> simp [executeEnv, hn]
  · intro hpol hdom
    have hn : needsNetworkProxy cfg = false := by
      rw [← Bool.not_eq_true, needsNetworkProxy_iff]
      rintro (h | h)
      · exact h hdom
      · exact hpol h
    intro e he
    simp [executeEnv, hn] at he
    rcases he with he | he
    · exact hbase e he
    · rw [he]
      exact hsrt commandID

/-- C9 witness: with an allow default policy the HTTP proxy variable is set
on the child environment, at the configured port. -/
theorem executeEnv_proxy_iff_witness :
    (("HTTP_PROXY=http://localhost:".data) ++ ((Nat.repr 8080).data))
      ∈ executeEnv [("PATH=/usr/bin".data)]
        ⟨⟨("allow".data), [], [], 8080, 1080⟩⟩ ("abc123".data) :=
  ((executeEnv_proxy_iff [("PATH=/usr/bin".data)]
      ⟨⟨("allow".data), [], [], 8080, 1080⟩⟩ (("abc123".data)) (by decide)).2.1
    (by decide)).1

/-- C3: the static phase rejects a profile with no version declaration, a
profile whose parentheses are unbalanced under the running counter, and a
profile containing neither an allow nor a deny statement; and whenever any
static check fails, the result is the static error whatever the dynamic
phase would say — the dynamic phase is never consulted. -/
theorem ValidateProfile_static (dyn : List Char → Option (List Char)) (p : List Char) :
    (containsSub p ("(version 1)".data) = false →
      ValidateProfile dyn p = some ("profile missing (version 1) declaration".data))
    ∧ (containsSub p ("(version 1)".data) = true → hasBalancedParentheses p = false →
      ValidateProfile dyn p = some ("profile has unbalanced parentheses".data))
    ∧ (containsSub p ("(version 1)".data) = true → hasBalancedParentheses p = true →
       containsSub p ("(deny ".data) = false → containsSub p ("(allow ".data) = false →
      ValidateProfile dyn p = some ("profile missing deny/allow statements".data))
    ∧ (∀ e, validateStaticChecks p = some e →
        ∀ dyn' : List Char → Option (List Char), ValidateProfile dyn' p = some e) := by
  refine ⟨?_, ?_, ?_, ?_⟩
  · intro h1
    simp [ValidateProfile, validateStaticChecks, h1]
  · intro h1 h2
    simp [ValidateProfile, validateStaticChecks, h1, h2]
  · intro h1 h2 h3 h4
    simp [ValidateProfile, validateStaticChecks, h1, h2, h3, h4]
  · intro e he dyn'
    simp [ValidateProfile, he]

/-- C3 witness: a profile with no version declaration is rejected with the
static error, with the dynamic phase modelled as accepting everything. -/
theorem ValidateProfile_static_witness :
    ValidateProfile (fun _ => none) (("(deny default".data)) =
      some ("profile missing (version 1) declaration".data) :=
  (ValidateProfile_static (fun _ => none) (("(deny default".data))).1 (by decide)

example (norm : List Char → Option (List Char)) :
    GlobToRegex norm ("*.txt".data) = some ("^[^/]*\\.txt$".data) := rfl

example (norm : List Char → Option (List Char)) :
    GlobToRegex norm ("**/*.js".data) = some ("^.*[^/]*\\.js$".data) := rfl

example (norm : List Char → Option (List Char)) :
    GlobToRegex norm ("file?.txt".data) = some ("^file[^/]\\.txt$".data) := rfl

example : GlobToRegex idNorm (("\x7ba,b\x7d.go".data)) = some ("^(a|b)\\.go$".data) := rfl

example : GlobToRegex idNorm (("src/\x7ba,\x7bb,c\x7d\x7d".data)) = none := rfl

theorem emitPathRules_eq (norm : List Char → Option (List Char)) (head : List Char)
    (paths : List (List Char)) :
    emitPathRules norm head paths = specPathRules norm head paths := by
  induction paths with
  | nil => rfl
  | cons p rest ih =>
    rw [emitPathRules, specPathRules, List.mapM_cons]
    have hrule : (if ContainsGlob p then
        match GlobToRegex norm p with
        | none => none
        | some regex =>
          some (('(' :: head) ++ (" (regex #\"".data) ++ regex ++ ("\"))\n".data))
      else
        some (('(' :: head) ++ (" (subpath \"".data) ++ p ++ ("\"))\n".data)))
        = specPathRule norm head p := by
      rw [specPathRule]
      by_cases hg : ContainsGlob p = true
      · rw [if_pos hg, if_pos hg]
        cases GlobToRegex norm p <;> rfl
      · rw [if_neg hg, if_neg hg]
    rw [hrule, ih, specPathRules]
    cases hr : specPathRule norm head p with
    | none => rfl
    | some line =>
      cases hm : rest.mapM (specPathRule norm head) with
      | none => rfl
      | some rs => rfl

theorem codeSection_eq (norm : List Char → Option (List Char))
    (header head : List Char) (paths : List (List Char)) :
    (if paths.isEmpty then some [] else
      match emitPathRules norm head paths with
      | none => none
      | some rules => some (header ++ rules ++ ("\n".data)))
      = specSection norm header head paths := by
  rw [specSection, emitPathRules_eq]
  by_cases h : paths.isEmpty
  · simp [h]
  · simp only [h, if_false]
    cases specPathRules norm head paths <;> rfl

/-- C2: `GenerateSeatbeltProfile` emits exactly the claimed sections in the
claimed order — version declaration; process capability grants (exec always,
the rest flag-gated); network (deny all, plus the two loopback proxy ports
only when the proxy is enabled); filesystem reads (allow all, then one deny
rule per read-deny entry); filesystem writes (deny all, then one allow rule
per write-allow entry, then one deny rule per write-deny entry, so every
write-deny rule follows every write-allow rule); file deletion (deny all,
then one allow rule per unlink-allow entry) — each path entry yielding a
regex rule when it contains glob syntax and a literal subpath rule
otherwise. -/
theorem GenerateSeatbeltProfile_sections (norm : List Char → Option (List Char))
    (httpProxyPort socksProxyPort : Nat) (enableProxy : Bool)
    (denyReadPaths allowWritePaths denyWritePaths allowUnlinkPaths : List (List Char))
    (allowFork allowSysctlRead allowMachLookup allowPosixShm : Bool) :
    GenerateSeatbeltProfile norm httpProxyPort socksProxyPort enableProxy
      denyReadPaths allowWritePaths denyWritePaths allowUnlinkPaths
      allowFork allowSysctlRead allowMachLookup allowPosixShm
    = specSeatbeltProfile norm httpProxyPort socksProxyPort enableProxy
      denyReadPaths allowWritePaths denyWritePaths allowUnlinkPaths
      allowFork allowSysctlRead allowMachLookup allowPosixShm := by
  rw [GenerateSeatbeltProfile, specSeatbeltProfile]
  rw [codeSection_eq, codeSection_eq, codeSection_eq, codeSection_eq]
  cases specSection norm ("; Deny specific read paths\n".data)
      ("deny file-read*".data) denyReadPaths with
  | none => rfl
  | some readDeny =>
    cases specSection norm ("; Allow writes to specific paths\n".data)
        ("allow file-write*".data) allowWritePaths with
    | none => rfl
    | some writeAllow =>
      cases specSection norm ("; Deny specific writes within allowed paths\n".data)
          ("deny file-write*".data) denyWritePaths with
      | none => rfl
      | some writeDeny =>
        cases specSection norm ("; Allow unlink in specific paths\n".data)
            ("allow file-write-unlink".data) allowUnlinkPaths with
        | none => rfl
        | some unlinkAllow =>
          simp only [specProcessSection, specNetworkSection, List.append_assoc]
          cases enableProxy <;> cases allowFork <;> cases allowSysctlRead <;>
            cases allowMachLookup <;> cases allowPosixShm <;> rfl

/-! Step equations for `globScan`, one per source-level case of the Go
scanning loop. -/

theorem globScan_star2_cons (comp : List Char → Option (List Char)) (c : Char)
    (r : List Char) (h : c ≠ '/') :
    globScan comp .normal ('*' :: '*' :: c :: r)
      = (globScan comp .normal (c :: r)).map (fun t => (".*".data) ++ t) := by
  rw [globScan.eq_def]
  split
  case h_4 =>
    rename_i hnostar hmode heq
    injection heq with hh ht
    exact absurd ht.symm (hnostar (c :: r))
  case h_8 =>
    rename_i hs hq hb hbr hmode heq
    injection heq with hc hrest
    exact absurd hc.symm hs
  all_goals simp_all

theorem globScan_star1_cons (comp : List Char → Option (List Char)) (c : Char)
    (r : List Char) (h : c ≠ '*') :
    globScan comp .normal ('*' :: c :: r)
      = (globScan comp .normal (c :: r)).map (fun t => ("[^/]*".data) ++ t) := by
  rw [globScan.eq_def]
  split
  case h_8 =>
    rename_i hs hq hb hbr hmode heq
    injection heq with hc2 hr2
    exact absurd hc2.symm hs
  all_goals simp_all

theorem globScan_other (comp : List Char → Option (List Char)) (c : Char)
    (r : List Char) (h1 : c ≠ '*') (h2 : c ≠ '?') (h3 : c ≠ '[') (h4 : c ≠ '\x7b') :
    globScan comp .normal (c :: r)
      = (globScan comp .normal r).map
          (fun t => (if escapedChars.contains c then ['\\', c] else [c]) ++ t) := by
  rw [globScan.eq_def]
  split
  case h_8 =>
    rename_i hne1 hne2 hne3 hne4 heq
    obtain ⟨rfl, rfl⟩ := heq
    by_cases hc : c ∈ escapedChars <;> simp [hc]
  all_goals simp_all

theorem globScan_inClass_cons (comp : List Char → Option (List Char))
    (acc : List Char) (c : Char) (rest : List Char) (h : c ≠ ']') :
    globScan comp (.inClass acc) (c :: rest)
      = globScan comp (.inClass (c :: acc)) rest := by
  rw [globScan.eq_def]
  split
  all_goals simp_all

theorem globScan_inBrace_cons (comp : List Char → Option (List Char)) (d : Nat)
    (acc : List Char) (c : Char) (rest : List Char)
    (h1 : c ≠ '\x7b') (h2 : c ≠ '\x7d') :
    globScan comp (.inBrace d acc) (c :: rest)
      = globScan comp (.inBrace d (c :: acc)) rest := by
  rw [globScan.eq_def]
  split
  all_goals simp_all

/-! Correspondence between the scanner's class/brace modes and the
index-based `splitClass`/`splitBrace` views of the Go scans. -/

theorem splitClass_none (t : List Char) (h : ']' ∉ t) : splitClass t = none := by
  induction t with
  | nil => rfl
  | cons c rest ih =>
    have hc : c ≠ ']' := fun hh => h (hh ▸ List.mem_cons_self c rest)
    have hrest : ']' ∉ rest := fun hm => h (List.mem_cons_of_mem _ hm)
    rw [splitClass.eq_def]
    split
    case h_3 =>
      rename_i lx cx rx hne heq
      obtain ⟨rfl, rfl⟩ := heq
      rw [ih hrest]
    all_goals simp_all

theorem splitBrace_none (t : List Char) (h : '\x7d' ∉ t) :
    ∀ d, splitBrace d t = none := by
  induction t with
  | nil => intro d; rfl
  | cons c rest ih =>
    intro d
    have hc : c ≠ '\x7d' := fun hh => h (hh ▸ List.mem_cons_self c rest)
    have hrest : '\x7d' ∉ rest := fun hm => h (List.mem_cons_of_mem _ hm)
    rw [splitBrace.eq_def]
    by_cases hb : c = '\x7b'
    · subst hb
      simp [ih hrest]
    · simp [hb, hc, ih hrest]

theorem globScan_inClass_eq (comp : List Char → Option (List Char)) :
    ∀ (rest acc : List Char),
    globScan comp (.inClass acc) rest =
      match splitClass rest with
      | none => none
      | some (body, after) =>
        (globScan comp .normal after).map
          (fun t => '[' :: (acc.reverse ++ (body ++ ']' :: t))) := by
  intro rest
  induction rest with
  | nil => intro acc; rfl
  | cons c rest ih =>
    intro acc
    by_cases hc : c = ']'
    · subst hc
      show (globScan comp .normal rest).map (fun t => '[' :: (acc.reverse ++ ']' :: t)) = _
      show _ = (globScan comp .normal rest).map
        (fun t => '[' :: (acc.reverse ++ ([] ++ ']' :: t)))
      simp
    · rw [globScan_inClass_cons comp acc c rest hc, ih (c :: acc)]
      rw [show splitClass (c :: rest) = (match splitClass rest with
        | none => none
        | some (pre, post) => some (c :: pre, post)) from by
          rw [splitClass.eq_def]; split <;> simp_all]
      cases splitClass rest with
      | none => rfl
      | some pr =>
        obtain ⟨body, after⟩ := pr
        simp [List.append_assoc]

theorem globScan_inBrace_eq (comp : List Char → Option (List Char)) :
    ∀ (rest : List Char) (d : Nat) (acc : List Char),
    globScan comp (.inBrace d acc) rest =
      match splitBrace d rest with
      | none => none
      | some (body, after) =>
        braceResult comp (acc.reverse ++ body) (globScan comp .normal after) := by
  intro rest
  induction rest with
  | nil => intro d acc; rfl
  | cons c rest ih =>
    intro d acc
    by_cases hb : c = '\x7b'
    · subst hb
      show globScan comp (.inBrace (d + 1) ('\x7b' :: acc)) rest = _
      rw [ih (d + 1) ('\x7b' :: acc)]
      rw [show splitBrace d ('\x7b' :: rest) = (match splitBrace (d + 1) rest with
        | none => none
        | some (i, r) => some ('\x7b' :: i, r)) from by
          rw [splitBrace.eq_def]; simp]
      cases splitBrace (d + 1) rest with
      | none => rfl
      | some pr =>
        obtain ⟨body, after⟩ := pr
        simp [List.append_assoc]
    · by_cases hd : c = '\x7d'
      · subst hd
        cases d with
        | zero =>
          show braceResult comp acc.reverse (globScan comp .normal rest) = _
          rw [show splitBrace 0 ('\x7d' :: rest) = some ([], rest) from by
            rw [splitBrace.eq_def]; simp]
          simp
        | succ k =>
          show globScan comp (.inBrace k ('\x7d' :: acc)) rest = _
          rw [ih k ('\x7d' :: acc)]
          rw [show splitBrace (k + 1) ('\x7d' :: rest) = (match splitBrace k rest with
            | none => none
            | some (i, r) => some ('\x7d' :: i, r)) from by
              rw [splitBrace.eq_def]; simp]
          cases splitBrace k rest with
          | none => rfl
          | some pr =>
            obtain ⟨body, after⟩ := pr
            simp [List.append_assoc]
      · rw [globScan_inBrace_cons comp d acc c rest hb hd, ih d (c :: acc)]
        rw [show splitBrace d (c :: rest) = (match splitBrace d rest with
          | none => none
          | some (i, r) => some (c :: i, r)) from by
            rw [splitBrace.eq_def]; simp [hb, hd]]
        cases splitBrace d rest with
        | none => rfl
        | some pr =>
          obtain ⟨body, after⟩ := pr
          simp [List.append_assoc]

theorem globScan_class_entry (comp : List Char → Option (List Char)) (rest : List Char) :
    globScan comp .normal ('[' :: rest) = globScan comp (.inClass []) rest := rfl

theorem globScan_brace_entry (comp : List Char → Option (List Char)) (rest : List Char) :
    globScan comp .normal ('\x7b' :: rest) = globScan comp (.inBrace 0 []) rest := rfl

theorem globCompileFuel_succ (norm : List Char → Option (List Char)) (f : Nat)
    (p : List Char) :
    globCompileFuel norm (f + 1) p =
      match (if ContainsGlob p then some p else norm p) with
      | none => none
      | some q =>
        match globScan (fun part => globCompileFuel norm f part) ScanMode.normal q with
        | none => none
        | some body => some ('^' :: (body ++ ['$'])) := rfl

/-- A scan that fails on `l` (which starts with `[` or with a brace) still
fails with any class-free and brace-free prefix `p` prepended. -/
theorem globScan_append_none (comp : List Char → Option (List Char)) :
    ∀ (n : Nat) (p : List Char), p.length ≤ n →
    (∀ c ∈ p, c ≠ '[' ∧ c ≠ '\x7b') →
    ∀ (hd : Char) (tl : List Char), (hd = '[' ∨ hd = '\x7b') →
    globScan comp .normal (hd :: tl) = none →
    globScan comp .normal (p ++ hd :: tl) = none := by
  intro n
  induction n with
  | zero =>
    intro p hlen _ hd tl _ hnone
    have hp : p = [] := List.length_eq_zero.mp (Nat.le_zero.mp hlen)
    simpa [hp] using hnone
  | succ n ih =>
    intro p hlen hpre hd tl hhd hnone
    cases p with
    | nil => simpa using hnone
    | cons c rest =>
      have hprest : ∀ x ∈ rest, x ≠ '[' ∧ x ≠ '\x7b' :=
        fun x hx => hpre x (List.mem_cons_of_mem _ hx)
      by_cases hstar : c = '*'
      · subst hstar
        cases rest with
        | nil =>
          have hne : hd ≠ '*' := by rcases hhd with rfl | rfl <;> decide
          rw [List.cons_append, List.nil_append,
            globScan_star1_cons comp hd tl hne, hnone]
          rfl
        | cons c2 rest2 =>
          by_cases hstar2 : c2 = '*'
          · subst hstar2
            cases rest2 with
            | nil =>
              have hne : hd ≠ '/' := by rcases hhd with rfl | rfl <;> decide
              rw [show ('*' :: '*' :: ([] : List Char)) ++ hd :: tl
                  = '*' :: '*' :: hd :: tl from rfl,
                globScan_star2_cons comp hd tl hne, hnone]
              rfl
            | cons c3 rest3 =>
              by_cases hslash : c3 = '/'
              · subst hslash
                have hstep : globScan comp .normal
                    (('*' :: '*' :: '/' :: rest3) ++ hd :: tl)
                    = (globScan comp .normal (rest3 ++ hd :: tl)).map
                        (fun t => (".*".data) ++ t) := rfl
                rw [hstep, ih rest3 (by simp at hlen; omega)
                  (fun x hx => hprest x (by
                    exact List.mem_cons_of_mem _ (List.mem_cons_of_mem _ hx)))
                  hd tl hhd hnone]
                rfl
              · have hstep : ('*' :: '*' :: c3 :: rest3) ++ hd :: tl
                    = '*' :: '*' :: c3 :: (rest3 ++ hd :: tl) := rfl
                rw [hstep, globScan_star2_cons comp c3 (rest3 ++ hd :: tl) hslash]
                rw [show c3 :: (rest3 ++ hd :: tl) = (c3 :: rest3) ++ hd :: tl from rfl]
                rw [ih (c3 :: rest3) (by simp at hlen ⊢; omega)
                  (fun x hx => hprest x (List.mem_cons_of_mem _ hx)) hd tl hhd hnone]
                rfl
          · have hstep : ('*' :: c2 :: rest2) ++ hd :: tl
                = '*' :: c2 :: (rest2 ++ hd :: tl) := rfl
            rw [hstep, globScan_star1_cons comp c2 (rest2 ++ hd :: tl) hstar2]
            rw [show c2 :: (rest2 ++ hd :: tl) = (c2 :: rest2) ++ hd :: tl from rfl]
            rw [ih (c2 :: rest2) (by simp at hlen ⊢; omega)
              (fun x hx => hprest x hx) hd tl hhd hnone]
            rfl
      · by_cases hq : c = '?'
        · subst hq
          have hstep : globScan comp .normal (('?' :: rest) ++ hd :: tl)
              = (globScan comp .normal (rest ++ hd :: tl)).map
                  (fun t => ("[^/]".data) ++ t) := rfl
          rw [hstep, ih rest (by simp at hlen; omega) hprest hd tl hhd hnone]
          rfl
        · have hc1 : c ≠ '[' := (hpre c (List.mem_cons_self c rest)).1
          have hc2 : c ≠ '\x7b' := (hpre c (List.mem_cons_self c rest)).2
          rw [List.cons_append, globScan_other comp c (rest ++ hd :: tl) hstar hq hc1 hc2]
          rw [ih rest (by simp at hlen; omega) hprest hd tl hhd hnone]
          rfl

/-- C7: a pattern whose first bracket class is unclosed (no `]` follows it),
or whose first brace group is unclosed (no `}` follows it), makes the pattern
compiler fail with an error: `GlobToRegex` returns no compiled pattern at
all, for every prefix `pre` before the offending opener that itself contains
no `[` or `{`. -/
theorem GlobToRegex_unclosed (norm : List Char → Option (List Char)) (pre t : List Char)
    (hpre : ∀ c ∈ pre, c ≠ '[' ∧ c ≠ '\x7b') :
    ((']' ∉ t) → GlobToRegex norm (pre ++ '[' :: t) = none)
    ∧ (('\x7d' ∉ t) → GlobToRegex norm (pre ++ '\x7b' :: t) = none) := by
  constructor
  · intro ht
    have hg : ContainsGlob (pre ++ '[' :: t) = true :=
      List.any_eq_true.mpr ⟨'[', by simp, by decide⟩
    have hnone : ∀ comp : List Char → Option (List Char),
        globScan comp .normal ('[' :: t) = none := by
      intro comp
      rw [globScan_class_entry, globScan_inClass_eq comp t [], splitClass_none t ht]
    have happ : globScan
        (fun part => globCompileFuel norm ((pre ++ '[' :: t).length) part) .normal
        (pre ++ '[' :: t) = none :=
      globScan_append_none _ pre.length pre le_rfl hpre '[' t (Or.inl rfl) (hnone _)
    rw [GlobToRegex, globCompileFuel_succ, hg]
    simp only [if_true, happ]
  · intro ht
    have hg : ContainsGlob (pre ++ '\x7b' :: t) = true :=
      List.any_eq_true.mpr ⟨'\x7b', by simp, by decide⟩
    have hnone : ∀ comp : List Char → Option (List Char),
        globScan comp .normal ('\x7b' :: t) = none := by
      intro comp
      rw [globScan_brace_entry, globScan_inBrace_eq comp t 0 [], splitBrace_none t ht 0]
    have happ : globScan
        (fun part => globCompileFuel norm ((pre ++ '\x7b' :: t).length) part) .normal
        (pre ++ '\x7b' :: t) = none :=
      globScan_append_none _ pre.length pre le_rfl hpre '\x7b' t (Or.inr rfl) (hnone _)
    rw [GlobToRegex, globCompileFuel_succ, hg]
    simp only [if_true, happ]

/-- C7 witness: the unclosed class `src/[ab` and the unclosed brace group
`src/\x7bab` are both rejected. -/
theorem GlobToRegex_unclosed_witness :
    GlobToRegex idNorm ("src/[ab".data) = none
    ∧ GlobToRegex idNorm ("src/\x7bab".data) = none :=
  ⟨(GlobToRegex_unclosed idNorm ("src/".data) ("ab".data) (by decide)).1 (by decide),
   (GlobToRegex_unclosed idNorm ("src/".data) ("ab".data) (by decide)).2 (by decide)⟩

example : MatchGlob idNorm ("*.txt".data) ("file.txt".data) = some true := rfl

example : MatchGlob idNorm ("*.txt".data) ("file.go".data) = some false := rfl

example : MatchGlob idNorm ("**/*.js".data) ("src/main.js".data) = some true := rfl

example : MatchGlob idNorm ("**/*.js".data) ("a/b/c.js".data) = some true := rfl

example : MatchGlob idNorm ("src/**/*.go".data) ("src/internal/config.go".data) = some true := rfl

example : MatchGlob idNorm ("*".data) ("a/b".data) = some false := rfl

example : MatchGlob idNorm (("\x7ba,b\x7d.go".data)) ("a.go".data) = some true := rfl

example : MatchGlob idNorm (("\x7ba,b\x7d.go".data)) ("c.go".data) = some false := rfl

example : MatchGlob idNorm ("[abc].txt".data) ("b.txt".data) = some true := rfl

example : MatchGlob idNorm ("[a-c].txt".data) ("b.txt".data) = some true := rfl

example : MatchGlob idNorm ("[a-c].txt".data) ("d.txt".data) = some false := rfl

/-! Length facts about the matcher's scanners, and independence of `reMatch`
from its fuel whenever the fuel exceeds `pattern.length + input.length`. -/

theorem optStep {o : Option (List Char × List Char)} (pre : List Char)
    {i r : List Char}
    (h : (match o with
          | none => none
          | some (i, r) => some (pre ++ i, r)) = some (i, r)) :
    ∃ i', i = pre ++ i' ∧ o = some (i', r) := by
  cases o with
  | none => simp at h
  | some pr =>
    obtain ⟨i', r'⟩ := pr
    simp at h
    exact ⟨i', h.1.symm, by rw [h.2]⟩

theorem scanGroup_true_close (d : Nat) (rest : List Char) :
    scanGroup true d (']' :: rest) =
      (match scanGroup false d rest with
       | none => none
       | some (i, r) => some (']' :: i, r)) := rfl

theorem scanGroup_false_esc (d : Nat) (c2 : Char) (rest2 : List Char) :
    scanGroup false d ('\\' :: c2 :: rest2) =
      (match scanGroup false d rest2 with
       | none => none
       | some (i, r) => some ('\\' :: c2 :: i, r)) := by cases d <;> rfl

theorem scanGroup_false_esc_nil (d : Nat) :
    scanGroup false d ['\\'] = none := by cases d <;> rfl

theorem scanGroup_false_class (d : Nat) (rest : List Char) :
    scanGroup false d ('[' :: rest) =
      (match scanGroup true d rest with
       | none => none
       | some (i, r) => some ('[' :: i, r)) := by cases d <;> rfl

theorem scanGroup_false_open (d : Nat) (rest : List Char) :
    scanGroup false d ('(' :: rest) =
      (match scanGroup false (d + 1) rest with
       | none => none
       | some (i, r) => some ('(' :: i, r)) := by cases d <;> rfl

theorem scanGroup_false_close0 (rest : List Char) :
    scanGroup false 0 (')' :: rest) = some ([], rest) := rfl

theorem scanGroup_false_closeS (k : Nat) (rest : List Char) :
    scanGroup false (k + 1) (')' :: rest) =
      (match scanGroup false k rest with
       | none => none
       | some (i, r) => some (')' :: i, r)) := rfl

theorem scanGroup_true_other (d : Nat) (c : Char) (rest : List Char) (h : c ≠ ']') :
    scanGroup true d (c :: rest) =
      (match scanGroup true d rest with
       | none => none
       | some (i, r) => some (c :: i, r)) := by
  rw [scanGroup.eq_def]
  split
  all_goals simp_all

theorem scanGroup_false_other (d : Nat) (c : Char) (rest : List Char)
    (h1 : c ≠ '\\') (h2 : c ≠ '[') (h3 : c ≠ '(') (h4 : c ≠ ')') :
    scanGroup false d (c :: rest) =
      (match scanGroup false d rest with
       | none => none
       | some (i, r) => some (c :: i, r)) := by
  rw [scanGroup.eq_def]
  split
  all_goals simp_all

theorem splitClass_length : ∀ (l content after : List Char),
    splitClass l = some (content, after) → content.length + 1 + after.length = l.length := by
  intro l
  induction l with
  | nil => intro content after h; simp [splitClass] at h
  | cons c rest ih =>
    intro content after h
    by_cases hc : c = ']'
    · subst hc
      have h' : some (([] : List Char), rest) = some (content, after) := h
      simp at h'
      obtain ⟨rfl, rfl⟩ := h'
      simp
      omega
    · rw [show splitClass (c :: rest) = (match splitClass rest with
        | none => none
        | some (pre, post) => some (c :: pre, post)) from by
          rw [splitClass.eq_def]; split <;> simp_all] at h
      revert h
      cases hs : splitClass rest with
      | none => intro h; simp at h
      | some pr =>
        obtain ⟨pre, post⟩ := pr
        intro h
        simp at h
        obtain ⟨rfl, rfl⟩ := h
        have := ih pre post hs
        simp at this ⊢
        omega

theorem scanGroup_length : ∀ (n : Nat) (l : List Char), l.length ≤ n →
    ∀ (b : Bool) (d : Nat) (i r : List Char),
    scanGroup b d l = some (i, r) → i.length + 1 + r.length = l.length := by
  intro n
  induction n with
  | zero =>
    intro l hl b d i r h
    have : l = [] := List.length_eq_zero.mp (Nat.le_zero.mp hl)
    subst this
    simp [scanGroup] at h
  | succ n ih =>
    intro l hl b d i r h
    cases l with
    | nil => simp [scanGroup] at h
    | cons c rest =>
      have hrest : rest.length ≤ n := by simp at hl; omega
      cases b with
      | true =>
        by_cases hc : c = ']'
        · subst hc
          rw [scanGroup_true_close] at h
          obtain ⟨i', rfl, hsg⟩ := optStep [']'] h
          have := ih rest hrest false d i' r hsg
          simp at this ⊢
          omega
        · rw [scanGroup_true_other d c rest hc] at h
          obtain ⟨i', rfl, hsg⟩ := optStep [c] h
          have := ih rest hrest true d i' r hsg
          simp at this ⊢
          omega
      | false =>
        by_cases h1 : c = '\\'
        · subst h1
          cases rest with
          | nil => rw [scanGroup_false_esc_nil] at h; exact Option.noConfusion h
          | cons c2 rest2 =>
            rw [scanGroup_false_esc] at h
            obtain ⟨i', rfl, hsg⟩ := optStep ['\\', c2] h
            have hr2 : rest2.length ≤ n := by simp at hl; omega
            have := ih rest2 hr2 false d i' r hsg
            simp at this ⊢
            omega
        · by_cases h2 : c = '['
          · subst h2
            rw [scanGroup_false_class] at h
            obtain ⟨i', rfl, hsg⟩ := optStep ['['] h
            have := ih rest hrest true d i' r hsg
            simp at this ⊢
            omega
          · by_cases h3 : c = '('
            · subst h3
              rw [scanGroup_false_open] at h
              obtain ⟨i', rfl, hsg⟩ := optStep ['('] h
              have := ih rest hrest false (d + 1) i' r hsg
              simp at this ⊢
              omega
            · by_cases h4 : c = ')'
              · subst h4
                cases d with
                | zero =>
                  rw [scanGroup_false_close0] at h
                  have h' := h
                  simp at h'
                  obtain ⟨rfl, rfl⟩ := h'
                  simp
                  omega
                | succ k =>
                  rw [scanGroup_false_closeS] at h
                  obtain ⟨i', rfl, hsg⟩ := optStep [')'] h
                  have := ih rest hrest false k i' r hsg
                  simp at this ⊢
                  omega
              · rw [scanGroup_false_other d c rest h1 h2 h3 h4] at h
                obtain ⟨i', rfl, hsg⟩ := optStep [c] h
                have := ih rest hrest false d i' r hsg
                simp at this ⊢
                omega

theorem splitAlts_true_close (d : Nat) (rest : List Char) :
    splitAlts true d (']' :: rest) = consHead ']' (splitAlts false d rest) := by
  cases d <;> rfl

theorem splitAlts_true_other (d : Nat) (c : Char) (rest : List Char) (h : c ≠ ']') :
    splitAlts true d (c :: rest) = consHead c (splitAlts true d rest) := by
  rw [splitAlts.eq_def]
  split
  all_goals simp_all

theorem splitAlts_false_esc (d : Nat) (c2 : Char) (rest2 : List Char) :
    splitAlts false d ('\\' :: c2 :: rest2)
      = consHead '\\' (consHead c2 (splitAlts false d rest2)) := by
  cases d <;> rfl

theorem splitAlts_false_esc_nil (d : Nat) :
    splitAlts false d ['\\'] = [['\\']] := by
  cases d <;> rfl

theorem splitAlts_false_class (d : Nat) (rest : List Char) :
    splitAlts false d ('[' :: rest) = consHead '[' (splitAlts true d rest) := by
  cases d <;> rfl

theorem splitAlts_false_open (d : Nat) (rest : List Char) :
    splitAlts false d ('(' :: rest) = consHead '(' (splitAlts false (d + 1) rest) := by
  cases d <;> rfl

theorem splitAlts_false_close (d : Nat) (rest : List Char) :
    splitAlts false d (')' :: rest) = consHead ')' (splitAlts false (d - 1) rest) := by
  cases d <;> rfl

theorem splitAlts_false_pipe0 (rest : List Char) :
    splitAlts false 0 ('|' :: rest) = [] :: splitAlts false 0 rest := rfl

theorem splitAlts_false_pipeS (k : Nat) (rest : List Char) :
    splitAlts false (k + 1) ('|' :: rest) = consHead '|' (splitAlts false (k + 1) rest) := rfl

theorem splitAlts_false_other (d : Nat) (c : Char) (rest : List Char)
    (h1 : c ≠ '\\') (h2 : c ≠ '[') (h3 : c ≠ '(') (h4 : c ≠ ')') (h5 : c ≠ '|') :
    splitAlts false d (c :: rest) = consHead c (splitAlts false d rest) := by
  rw [splitAlts.eq_def]
  split
  all_goals simp_all

theorem consHead_length {L : List (List Char)} {m : Nat} (c : Char)
    (h : ∀ x ∈ L, x.length ≤ m) :
    ∀ a ∈ consHead c L, a.length ≤ m + 1 := by
  intro a ha
  cases L with
  | nil =>
    simp [consHead] at ha
    subst ha
    simp
  | cons x xs =>
    simp only [consHead, List.mem_cons] at ha
    rcases ha with rfl | ha
    · have := h x (List.mem_cons_self x xs)
      simp
      omega
    · have := h a (List.mem_cons_of_mem _ ha)
      omega

theorem splitAlts_mem_length : ∀ (n : Nat) (l : List Char), l.length ≤ n →
    ∀ (b : Bool) (d : Nat) (a : List Char), a ∈ splitAlts b d l → a.length ≤ l.length := by
  intro n
  induction n with
  | zero =>
    intro l hl b d a ha
    have : l = [] := List.length_eq_zero.mp (Nat.le_zero.mp hl)
    subst this
    simp [splitAlts] at ha
    simp [ha]
  | succ n ih =>
    intro l hl b d a ha
    cases l with
    | nil =>
      simp [splitAlts] at ha
      simp [ha]
    | cons c rest =>
      have hrest : rest.length ≤ n := by simp at hl; omega
      have hstep : ∀ (b' : Bool) (d' : Nat), (∀ x ∈ splitAlts b' d' rest, x.length ≤ rest.length) :=
        fun b' d' x hx => ih rest hrest b' d' x hx
      cases b with
      | true =>
        by_cases hc : c = ']'
        · subst hc
          rw [splitAlts_true_close] at ha
          have := consHead_length ']' (hstep false d) a ha
          simpa using this
        · rw [splitAlts_true_other d c rest hc] at ha
          have := consHead_length c (hstep true d) a ha
          simpa using this
      | false =>
        by_cases h1 : c = '\\'
        · subst h1
          cases rest with
          | nil =>
            rw [splitAlts_false_esc_nil] at ha
            simp at ha
            simp [ha]
          | cons c2 rest2 =>
            rw [splitAlts_false_esc] at ha
            have hr2 : rest2.length ≤ n := by simp at hl; omega
            have base : ∀ x ∈ splitAlts false d rest2, x.length ≤ rest2.length :=
              fun x hx => ih rest2 hr2 false d x hx
            have step1 := consHead_length c2 base
            have := consHead_length '\\' step1 a ha
            simp at this ⊢
            omega
        · by_cases h2 : c = '['
          · subst h2
            rw [splitAlts_false_class] at ha
            have := consHead_length '[' (hstep true d) a ha
            simpa using this
          · by_cases h3 : c = '('
            · subst h3
              rw [splitAlts_false_open] at ha
              have := consHead_length '(' (hstep false (d + 1)) a ha
              simpa using this
            · by_cases h4 : c = ')'
              · subst h4
                rw [splitAlts_false_close] at ha
                have := consHead_length ')' (hstep false (d - 1)) a ha
                simpa using this
              · by_cases h5 : c = '|'
                · subst h5
                  cases d with
                  | zero =>
                    rw [splitAlts_false_pipe0] at ha
                    simp only [List.mem_cons] at ha
                    rcases ha with rfl | ha
                    · simp
                    · have := hstep false 0 a ha
                      simp
                      omega
                  | succ k =>
                    rw [splitAlts_false_pipeS] at ha
                    have := consHead_length '|' (hstep false (k + 1)) a ha
                    simpa using this
                · rw [splitAlts_false_other d c rest h1 h2 h3 h4 h5] at ha
                  have := consHead_length c (hstep false d) a ha
                  simpa using this

theorem parseAtom_length : ∀ (p : List Char) (pred : Char → Bool) (rest : List Char),
    parseAtom p = some (pred, rest) → rest.length < p.length := by
  intro p pred rest h
  cases p with
  | nil => simp [parseAtom] at h
  | cons c p' =>
    by_cases h1 : c = '\\'
    · subst h1
      cases p' with
      | nil => simp [parseAtom] at h
      | cons c2 p'' =>
        have h' : some ((fun d => d == c2), p'') = some (pred, rest) := h
        simp at h'
        rw [h'.2]
        simp
        omega
    · by_cases h2 : c = '['
      · subst h2
        revert h
        rw [show parseAtom ('[' :: p') = (match splitClass p' with
          | none => none
          | some (content, after) => some (classPred content, after)) from rfl]
        cases hs : splitClass p' with
        | none => intro h; simp at h
        | some pr =>
          obtain ⟨content, after⟩ := pr
          intro h
          simp at h
          rw [← h.2]
          have := splitClass_length p' content after hs
          simp
          omega
      · by_cases h3 : c = '.'
        · subst h3
          have h' : some ((fun _ => true), p') = some (pred, rest) := h
          simp at h'
          rw [h'.2]
          simp
        · have hstep : parseAtom (c :: p') =
              (if c == '$' || c == '(' || c == ')' || c == '|' || c == '*' then none
               else some ((fun d => d == c), p')) := by
            rw [parseAtom.eq_def]
            split
            all_goals simp_all
          rw [hstep] at h
          by_cases hc : (c == '$' || c == '(' || c == ')' || c == '|' || c == '*') = true
          · rw [if_pos hc] at h
            simp at h
          · rw [if_neg hc] at h
            simp at h
            rw [h.2]
            simp

theorem anyCongr {α : Type} {l : List α} {f g : α → Bool}
    (h : ∀ x ∈ l, f x = g x) : l.any f = l.any g := by
  induction l with
  | nil => rfl
  | cons x xs ih =>
    simp only [List.any_cons]
    rw [h x (List.mem_cons_self x xs), ih (fun y hy => h y (List.mem_cons_of_mem _ hy))]

theorem reMatch_nil (f : Nat) (s : List Char) : reMatch (f + 1) [] s = true := rfl

theorem reMatch_dollar (f : Nat) (rest s : List Char) :
    reMatch (f + 1) ('$' :: rest) s = (s.isEmpty && reMatch f rest s) := rfl

theorem reMatch_group (f : Nat) (rest s : List Char) :
    reMatch (f + 1) ('(' :: rest) s =
      (match scanGroup false 0 rest with
       | none => false
       | some (inner, after) =>
         (splitAlts false 0 inner).any fun alt => reMatch f (alt ++ after) s) := rfl

theorem reMatch_atom (f : Nat) (c : Char) (rest s : List Char)
    (h1 : c ≠ '$') (h2 : c ≠ '(') :
    reMatch (f + 1) (c :: rest) s =
      (match parseAtom (c :: rest) with
       | none => false
       | some (pred, arest) =>
         match arest with
         | '*' :: rest2 =>
           reMatch f rest2 s ||
             (match s with
              | [] => false
              | ch :: s' => pred ch && reMatch f (c :: rest) s')
         | _ =>
           (match s with
            | [] => false
            | ch :: s' => pred ch && reMatch f arest s')) := by
  rw [reMatch.eq_def]
  split
  all_goals simp_all

/-- `reMatch` does not depend on the fuel once it exceeds
`pattern.length + input.length`. -/
theorem reMatch_congr : ∀ (n : Nat) (p s : List Char), p.length + s.length ≤ n →
    ∀ (f g : Nat), n < f → n < g → reMatch f p s = reMatch g p s := by
  intro n
  induction n with
  | zero =>
    intro p s hps f g hf hg
    have hp : p = [] := by
      cases p with
      | nil => rfl
      | cons c r => simp at hps
    subst hp
    cases f with
    | zero => omega
    | succ f' =>
      cases g with
      | zero => omega
      | succ g' => rfl
  | succ n ih =>
    intro p s hps f g hf hg
    cases f with
    | zero => omega
    | succ f' =>
      cases g with
      | zero => omega
      | succ g' =>
        have hf' : n < f' := by omega
        have hg' : n < g' := by omega
        cases p with
        | nil => rfl
        | cons c prest =>
          by_cases hdl : c = '$'
          · subst hdl
            rw [reMatch_dollar, reMatch_dollar,
              ih prest s (by simp at hps ⊢; omega) f' g' hf' hg']
          · by_cases hpar : c = '('
            · subst hpar
              rw [reMatch_group, reMatch_group]
              cases hsg : scanGroup false 0 prest with
              | none => rfl
              | some pr =>
                obtain ⟨inner, after⟩ := pr
                have hlen := scanGroup_length prest.length prest le_rfl false 0
                  inner after hsg
                refine anyCongr ?_
                intro alt halt
                have halts : alt.length ≤ inner.length :=
                  splitAlts_mem_length inner.length inner le_rfl false 0 alt halt
                refine ih (alt ++ after) s ?_ f' g' hf' hg'
                simp at hps ⊢
                omega
            · rw [reMatch_atom f' c prest s hdl hpar, reMatch_atom g' c prest s hdl hpar]
              cases hpa : parseAtom (c :: prest) with
              | none => rfl
              | some pr =>
                obtain ⟨pred, arest⟩ := pr
                have hal := parseAtom_length (c :: prest) pred arest hpa
                dsimp only
                cases arest with
                | nil =>
                  cases s with
                  | nil => rfl
                  | cons ch s' =>
                    dsimp only
                    rw [ih [] s' (by simp at hps ⊢; omega) f' g' hf' hg']
                | cons a arest2 =>
                  by_cases ha : a = '*'
                  · subst ha
                    split
                    · next rest2 heq =>
                      injection heq with _ heq2
                      subst heq2
                      cases s with
                      | nil =>
                        dsimp only
                        rw [ih arest2 [] (by simp at hps hal ⊢; omega) f' g' hf' hg']
                      | cons ch s' =>
                        dsimp only
                        rw [ih arest2 (ch :: s') (by simp at hps hal ⊢; omega) f' g' hf' hg',
                          ih (c :: prest) s' (by simp at hps ⊢; omega) f' g' hf' hg']
                    · rename_i hne
                      exact (hne arest2 rfl).elim
                  · cases s with
                    | nil =>
                      dsimp only
                      split
                      · next heq => injection heq with heq1 _; exact absurd heq1 ha
                      · rfl
                    | cons ch s' =>
                      dsimp only
                      have halen : (a :: arest2).length + s'.length ≤ n := by
                        simp at hps hal ⊢
                        omega
                      split
                      · next heq => injection heq with heq1 _; exact absurd heq1 ha
                      · rw [ih (a :: arest2) s' halen f' g' hf' hg']

/-! Semantics of the compiled forms of `*`, `?` and `**`, and anchoredness of
every compiled pattern. -/

theorem GlobToRegex_anchored (norm : List Char → Option (List Char)) (p r : List Char)
    (h : GlobToRegex norm p = some r) : ∃ body, r = '^' :: (body ++ ['$']) := by
  rw [GlobToRegex, globCompileFuel_succ] at h
  cases hq : (if ContainsGlob p then some p else norm p) with
  | none => rw [hq] at h; simp at h
  | some q =>
    rw [hq] at h
    dsimp only at h
    cases hs : globScan (fun part => globCompileFuel norm p.length part) ScanMode.normal q with
    | none => rw [hs] at h; simp at h
    | some body =>
      rw [hs] at h
      simp at h
      exact ⟨body, h.symm⟩

theorem reMatch_star_slashfree : ∀ (s : List Char) (f : Nat), s.length + 7 ≤ f →
    (reMatch f (("[^/]*$".data)) s = true ↔ ∀ c ∈ s, c ≠ '/') := by
  intro s
  induction s with
  | nil =>
    intro f hf
    obtain ⟨f3, rfl⟩ : ∃ f3, f = f3 + 3 := ⟨f - 3, by omega⟩
    have : reMatch (f3 + 3) (("[^/]*$".data)) [] = true := rfl
    simp [this]
  | cons c s' ih =>
    intro f hf
    obtain ⟨f2, rfl⟩ : ∃ f2, f = f2 + 2 := ⟨f - 2, by omega⟩
    have hstep : reMatch (f2 + 2) (("[^/]*$".data)) (c :: s')
        = (!(('/' == c) || false) && reMatch (f2 + 1) (("[^/]*$".data)) s') := rfl
    rw [hstep]
    have hih := ih (f2 + 1) (by simp at hf ⊢; omega)
    constructor
    · intro h
      rw [Bool.and_eq_true] at h
      intro x hx
      rcases List.mem_cons.mp hx with rfl | hx'
      · intro hcontra
        subst hcontra
        simp at h
      · exact (hih.mp h.2) x hx'
    · intro h
      rw [Bool.and_eq_true]
      refine ⟨?_, hih.mpr (fun x hx => h x (List.mem_cons_of_mem _ hx))⟩
      have hc : c ≠ '/' := h c (List.mem_cons_self c s')
      simp [Ne.symm hc]

theorem reMatch_question_single : ∀ (s : List Char) (f : Nat), s.length + 6 ≤ f →
    (reMatch f (("[^/]$".data)) s = true ↔ ∃ c, s = [c] ∧ c ≠ '/') := by
  intro s f hf
  cases s with
  | nil =>
    obtain ⟨f1, rfl⟩ : ∃ f1, f = f1 + 1 := ⟨f - 1, by omega⟩
    have : reMatch (f1 + 1) (("[^/]$".data)) [] = false := rfl
    simp [this]
  | cons c s' =>
    cases s' with
    | nil =>
      obtain ⟨f3, rfl⟩ : ∃ f3, f = f3 + 3 := ⟨f - 3, by omega⟩
      have hstep : reMatch (f3 + 3) (("[^/]$".data)) [c]
          = (!(('/' == c) || false) && true) := rfl
      rw [hstep]
      constructor
      · intro h
        refine ⟨c, rfl, ?_⟩
        intro hcontra
        subst hcontra
        simp at h
      · rintro ⟨c', hc', hne⟩
        injection hc' with h1 _
        subst h1
        simp [Ne.symm hne]
    | cons d s'' =>
      obtain ⟨f2, rfl⟩ : ∃ f2, f = f2 + 2 := ⟨f - 2, by omega⟩
      have hstep : reMatch (f2 + 2) (("[^/]$".data)) (c :: d :: s'')
          = (!(('/' == c) || false) && false) := rfl
      rw [hstep]
      simp

theorem reMatch_dotstar : ∀ (s : List Char) (f : Nat), s.length + 4 ≤ f →
    reMatch f ((".*$".data)) s = true := by
  intro s
  induction s with
  | nil =>
    intro f hf
    obtain ⟨f3, rfl⟩ : ∃ f3, f = f3 + 3 := ⟨f - 3, by omega⟩
    rfl
  | cons c s' ih =>
    intro f hf
    obtain ⟨f2, rfl⟩ : ∃ f2, f = f2 + 2 := ⟨f - 2, by omega⟩
    have hstep : reMatch (f2 + 2) ((".*$".data)) (c :: s')
        = reMatch (f2 + 1) ((".*$".data)) s' := by
      show (reMatch (f2 + 1) (['$']) (c :: s')
          || (true && reMatch (f2 + 1) ((".*$".data)) s')) = _
      obtain ⟨f1, rfl⟩ : ∃ f1, f2 = f1 + 1 := ⟨f2 - 1, by simp at hf; omega⟩
      rfl
    rw [hstep]
    exact ih (f2 + 1) (by simp at hf ⊢; omega)

theorem escapeLit_nil : escapeLit [] = [] := rfl

theorem escapeLit_cons (c : Char) (rest : List Char) :
    escapeLit (c :: rest)
      = (if escapedChars.contains c then ['\\', c] else [c]) ++ escapeLit rest := rfl

theorem globScan_literal (comp : List Char → Option (List Char)) :
    ∀ (lit : List Char),
    (∀ c ∈ lit, c ≠ '*' ∧ c ≠ '?' ∧ c ≠ '[' ∧ c ≠ '\x7b') →
    globScan comp .normal lit = some (escapeLit lit) := by
  intro lit
  induction lit with
  | nil => intro _; rfl
  | cons c rest ih =>
    intro h
    obtain ⟨h1, h2, h3, h4⟩ := h c (List.mem_cons_self c rest)
    rw [globScan_other comp c rest h1 h2 h3 h4,
      ih (fun x hx => h x (List.mem_cons_of_mem _ hx))]
    rw [escapeLit_cons]
    rfl

theorem ContainsGlob_eq_false_iff (l : List Char) :
    ContainsGlob l = false ↔ ∀ c ∈ l, c ≠ '*' ∧ c ≠ '?' ∧ c ≠ '[' ∧ c ≠ '\x7b' := by
  rw [ContainsGlob, List.any_eq_false]
  constructor
  · intro h c hc
    have h2 := h c hc
    simp at h2
    exact ⟨h2.1.1.1, h2.1.1.2, h2.1.2, h2.2⟩
  · intro h c hc
    have h2 := h c hc
    simp
    exact ⟨⟨⟨h2.1, h2.2.1⟩, h2.2.2.1⟩, h2.2.2.2⟩

theorem GlobToRegex_literal (norm : List Char → Option (List Char)) (p lit : List Char)
    (hg : ContainsGlob p = false) (hn : norm p = some lit)
    (hl : ContainsGlob lit = false) :
    GlobToRegex norm p = some ('^' :: (escapeLit lit ++ ['$'])) := by
  rw [GlobToRegex, globCompileFuel_succ]
  rw [if_neg (by rw [hg]; exact Bool.false_ne_true)]
  rw [hn]
  dsimp only
  rw [globScan_literal _ lit ((ContainsGlob_eq_false_iff lit).mp hl)]

theorem parseAtom_other (c : Char) (rest : List Char)
    (h1 : c ≠ '\\') (h2 : c ≠ '[') (h3 : c ≠ '.')
    (h4 : c ≠ '$') (h5 : c ≠ '(') (h6 : c ≠ ')') (h7 : c ≠ '|') (h8 : c ≠ '*') :
    parseAtom (c :: rest) = some ((fun d => d == c), rest) := by
  rw [parseAtom.eq_def]
  split
  all_goals simp_all

theorem reMatch_atom_nostar (f : Nat) (c : Char) (rest s : List Char)
    (pred : Char → Bool) (arest : List Char)
    (h1 : c ≠ '$') (h2 : c ≠ '(')
    (hpa : parseAtom (c :: rest) = some (pred, arest))
    (hns : ∀ a t, arest = a :: t → a ≠ '*') :
    reMatch (f + 1) (c :: rest) s =
      (match s with
       | [] => false
       | ch :: s2 => pred ch && reMatch f arest s2) := by
  rw [reMatch_atom f c rest s h1 h2, hpa]
  dsimp only
  cases arest with
  | nil => rfl
  | cons a t =>
    split
    · rename_i rest2 heq
      injection heq with heq1 _
      exact absurd heq1 (hns a t rfl)
    · rfl

theorem escapeLit_dollar_head (lit : List Char)
    (h : ∀ c ∈ lit, c ≠ '*') :
    ∀ a t, escapeLit lit ++ ['$'] = a :: t → a ≠ '*' := by
  cases lit with
  | nil =>
    intro a t heq
    rw [escapeLit_nil] at heq
    simp only [List.nil_append] at heq
    injection heq with heq1 _
    subst heq1
    decide
  | cons c rest =>
    intro a t heq
    rw [escapeLit_cons] at heq
    by_cases hc : escapedChars.contains c
    · rw [if_pos hc] at heq
      simp only [List.cons_append, List.nil_append] at heq
      injection heq with heq1 _
      subst heq1
      decide
    · rw [if_neg hc] at heq
      simp only [List.cons_append, List.nil_append] at heq
      injection heq with heq1 _
      subst heq1
      exact h c (List.mem_cons_self c rest)

theorem reMatch_literal : ∀ (lit s : List Char) (f : Nat),
    (∀ c ∈ lit, c ≠ '*' ∧ c ≠ '?' ∧ c ≠ '[' ∧ c ≠ '\x7b') →
    (escapeLit lit).length + s.length + 2 ≤ f →
    (reMatch f (escapeLit lit ++ ['$']) s = true ↔ s = lit) := by
  intro lit
  induction lit with
  | nil =>
    intro s f h hfuel
    obtain ⟨f2, rfl⟩ : ∃ f2, f = f2 + 2 := ⟨f - 2, by omega⟩
    rw [escapeLit_nil, List.nil_append, reMatch_dollar, reMatch_nil]
    cases s with
    | nil => simp
    | cons ch s2 => simp
  | cons c rest ih =>
    intro s f h hfuel
    obtain ⟨hc1, hc2, hc3, hc4⟩ := h c (List.mem_cons_self c rest)
    have hrest : ∀ x ∈ rest, x ≠ '*' ∧ x ≠ '?' ∧ x ≠ '[' ∧ x ≠ '\x7b' :=
      fun x hx => h x (List.mem_cons_of_mem _ hx)
    have hheadns : ∀ a t, escapeLit rest ++ ['$'] = a :: t → a ≠ '*' :=
      escapeLit_dollar_head rest (fun x hx => (hrest x hx).1)
    obtain ⟨f1, rfl⟩ : ∃ f1, f = f1 + 1 := ⟨f - 1, by omega⟩
    rw [escapeLit_cons]
    by_cases hc : escapedChars.contains c = true
    · have hlen : (escapeLit (c :: rest)).length = (escapeLit rest).length + 2 := by
        rw [escapeLit_cons, if_pos hc]
        simp only [List.length_append, List.length_cons, List.length_nil]
        omega
      rw [if_pos hc]
      simp only [List.cons_append, List.nil_append, List.append_assoc]
      rw [reMatch_atom_nostar f1 '\\' (c :: (escapeLit rest ++ ['$'])) s
        (fun d => d == c) (escapeLit rest ++ ['$']) (by decide) (by decide) rfl hheadns]
      cases s with
      | nil => simp
      | cons ch s2 =>
        dsimp only
        have hih := ih s2 f1 hrest (by
          simp only [List.length_cons] at hfuel
          omega)
        rw [Bool.and_eq_true, beq_iff_eq, hih, List.cons_eq_cons]
    · have hne : ∀ x : Char, escapedChars.contains x = true → c ≠ x :=
        fun x hx hcx => hc (hcx ▸ hx)
      have hlen : (escapeLit (c :: rest)).length = (escapeLit rest).length + 1 := by
        rw [escapeLit_cons, if_neg hc]
        simp only [List.length_append, List.length_cons, List.length_nil]
        omega
      rw [if_neg hc]
      simp only [List.cons_append, List.nil_append, List.append_assoc]
      rw [reMatch_atom_nostar f1 c (escapeLit rest ++ ['$']) s
        (fun d => d == c) (escapeLit rest ++ ['$'])
        (hne '$' (by decide)) (hne '(' (by decide))
        (parseAtom_other c (escapeLit rest ++ ['$'])
          (hne '\\' (by decide)) hc3 (hne '.' (by decide)) (hne '$' (by decide))
          (hne '(' (by decide)) (hne ')' (by decide)) (hne '|' (by decide)) hc1)
        hheadns]
      cases s with
      | nil => simp
      | cons ch s2 =>
        dsimp only
        have hih := ih s2 f1 hrest (by
          simp only [List.length_cons] at hfuel
          omega)
        rw [Bool.and_eq_true, beq_iff_eq, hih, List.cons_eq_cons]

theorem MatchGlob_literal (norm : List Char → Option (List Char)) (p lit s : List Char)
    (hg : ContainsGlob p = false) (hn : norm p = some lit)
    (hl : ContainsGlob lit = false) :
    MatchGlob norm p s = some (decide (s = lit)) := by
  have hc := GlobToRegex_literal norm p lit hg hn hl
  unfold MatchGlob
  rw [hc]
  dsimp only
  congr 1
  rw [show regexMatchString ('^' :: (escapeLit lit ++ ['$'])) s
      = reMatch ((escapeLit lit ++ ['$']).length + s.length + 1)
          (escapeLit lit ++ ['$']) s from rfl]
  have hiff := reMatch_literal lit s ((escapeLit lit ++ ['$']).length + s.length + 1)
    ((ContainsGlob_eq_false_iff lit).mp hl)
    (by simp only [List.length_append, List.length_cons, List.length_nil]; omega)
  by_cases hd : s = lit
  · rw [hiff.mpr hd]
    simp [hd]
  · have hfalse : reMatch ((escapeLit lit ++ ['$']).length + s.length + 1)
        (escapeLit lit ++ ['$']) s = false := by
      rw [← Bool.not_eq_true]
      intro hh
      exact hd (hiff.mp hh)
    rw [hfalse]
    simp [hd]

theorem MatchGlob_star (s : List Char) :
    MatchGlob idNorm ("*".data) s = some true ↔ ∀ c ∈ s, c ≠ '/' := by
  rw [show MatchGlob idNorm ("*".data) s
      = some (reMatch (("[^/]*$".data).length + s.length + 1) (("[^/]*$".data)) s) from rfl]
  rw [Option.some_inj]
  exact reMatch_star_slashfree s _
    (by have h6 : (("[^/]*$".data)).length = 6 := by decide
        omega)

theorem MatchGlob_question (s : List Char) :
    MatchGlob idNorm ("?".data) s = some true ↔ ∃ c, s = [c] ∧ c ≠ '/' := by
  rw [show MatchGlob idNorm ("?".data) s
      = some (reMatch (("[^/]$".data).length + s.length + 1) (("[^/]$".data)) s) from rfl]
  rw [Option.some_inj]
  exact reMatch_question_single s _
    (by have h5 : (("[^/]$".data)).length = 5 := by decide
        omega)

theorem MatchGlob_dstar (s : List Char) :
    MatchGlob idNorm ("**".data) s = some true := by
  rw [show MatchGlob idNorm ("**".data) s
      = some (reMatch ((".*$".data).length + s.length + 1) ((".*$".data)) s) from rfl]
  rw [Option.some_inj]
  exact reMatch_dotstar s _
    (by have h3 : ((".*$".data)).length = 3 := by decide
        omega)

/-- C5: semantics of the pattern compiler. (i) Every compiled pattern is
anchored at both ends (`^…$`). (ii) The compiled form of `*` matches
exactly the strings containing no separator `/`. (iii) The compiled form of
`?` matches exactly the single-character strings other than `/`. (iv) The
compiled form of `**` matches every string, separators included. (v) `**`
followed by `/` consumes the separator: the scanner emits `.*` and resumes
after the `/`. (vi) A non-glob pattern is first normalised and then matched
as an anchored literal: the match succeeds exactly on the normalised path
itself. (vii)–(x) `*.txt` matches `file.txt` and rejects `file.go`, and
`**/*.js` matches both `src/main.js` and `a/b/c.js`. -/
theorem GlobToRegex_semantics :
    (∀ (norm : List Char → Option (List Char)) (p r : List Char),
        GlobToRegex norm p = some r → ∃ body, r = '^' :: (body ++ ['$'])) ∧
    (∀ s : List Char, MatchGlob idNorm ("*".data) s = some true ↔ ∀ c ∈ s, c ≠ '/') ∧
    (∀ s : List Char, MatchGlob idNorm ("?".data) s = some true ↔ ∃ c, s = [c] ∧ c ≠ '/') ∧
    (∀ s : List Char, MatchGlob idNorm ("**".data) s = some true) ∧
    (∀ (comp : List Char → Option (List Char)) (rest : List Char),
        globScan comp ScanMode.normal ('*' :: '*' :: '/' :: rest)
          = (globScan comp ScanMode.normal rest).map (fun t => (".*".data) ++ t)) ∧
    (∀ (norm : List Char → Option (List Char)) (p lit s : List Char),
        ContainsGlob p = false → norm p = some lit → ContainsGlob lit = false →
        MatchGlob norm p s = some (decide (s = lit))) ∧
    MatchGlob idNorm ("*.txt".data) ("file.txt".data) = some true ∧
    MatchGlob idNorm ("*.txt".data) ("file.go".data) = some false ∧
    MatchGlob idNorm ("**/*.js".data) ("src/main.js".data) = some true ∧
    MatchGlob idNorm ("**/*.js".data) ("a/b/c.js".data) = some true := by
  refine ⟨GlobToRegex_anchored, MatchGlob_star, MatchGlob_question, MatchGlob_dstar,
    fun comp rest => rfl, MatchGlob_literal, rfl, rfl, rfl, rfl⟩

/-- C5 witness: the non-glob conjunct at the concrete literal path
`/etc/hosts` against itself, and the `*` conjunct at the concrete slash-free
input `abc`. -/
theorem GlobToRegex_semantics_witness :
    MatchGlob idNorm ("/etc/hosts".data) ("/etc/hosts".data) = some true ∧
    MatchGlob idNorm ("*".data) ("abc".data) = some true := by
  constructor
  · have hlit := GlobToRegex_semantics.2.2.2.2.2.1 idNorm ("/etc/hosts".data)
      ("/etc/hosts".data) ("/etc/hosts".data) rfl rfl rfl
    simpa using hlit
  · exact (GlobToRegex_semantics.2.1 ("abc".data)).mpr (by decide)

/-! ### Brace alternation: how `\x7ba,b,c\x7d` is expanded and matched -/

theorem intercalate_single (sep b : List Char) : List.intercalate sep [b] = b := by
  simp [List.intercalate]

theorem intercalate_cons2 (sep b b2 : List Char) (r : List (List Char)) :
    List.intercalate sep (b :: b2 :: r) = b ++ (sep ++ List.intercalate sep (b2 :: r)) := by
  simp [List.intercalate]

theorem mem_intercalate_single {c x : Char} :
    ∀ (parts : List (List Char)), c ∈ List.intercalate [x] parts →
      c = x ∨ ∃ part ∈ parts, c ∈ part := by
  intro parts
  induction parts with
  | nil => intro h; simp [List.intercalate] at h
  | cons b rest ih =>
    cases rest with
    | nil =>
      intro h
      rw [intercalate_single] at h
      exact Or.inr ⟨b, List.mem_cons_self b [], h⟩
    | cons b2 r =>
      intro h
      rw [intercalate_cons2] at h
      rcases List.mem_append.mp h with hb | hrest
      · exact Or.inr ⟨b, List.mem_cons_self _ _, hb⟩
      · rcases List.mem_append.mp hrest with hx | hi
        · exact Or.inl (List.mem_singleton.mp hx)
        · rcases ih hi with hc | ⟨part, hp, hcp⟩
          · exact Or.inl hc
          · exact Or.inr ⟨part, List.mem_cons_of_mem _ hp, hcp⟩

theorem length_le_intercalate {b : List Char} (x : Char) :
    ∀ (parts : List (List Char)), b ∈ parts →
      b.length ≤ (List.intercalate [x] parts).length := by
  intro parts
  induction parts with
  | nil => intro h; simp at h
  | cons a rest ih =>
    cases rest with
    | nil =>
      intro h
      rcases List.mem_cons.mp h with rfl | h2
      · rw [intercalate_single]
      · simp at h2
    | cons a2 r =>
      intro h
      rw [intercalate_cons2]
      rcases List.mem_cons.mp h with rfl | h2
      · simp
      · have := ih h2
        simp only [List.length_append, List.length_cons]
        omega

/-- `splitClass` recovers the decomposition of its input at the first `]`. -/
theorem splitClass_eq : ∀ (l content after : List Char),
    splitClass l = some (content, after) →
      l = content ++ ']' :: after ∧ ']' ∉ content := by
  intro l
  induction l with
  | nil => intro content after h; simp [splitClass] at h
  | cons c rest ih =>
    intro content after h
    by_cases hc : c = ']'
    · subst hc
      have h2 : some (([] : List Char), rest) = some (content, after) := h
      simp at h2
      obtain ⟨rfl, rfl⟩ := h2
      simp
    · rw [show splitClass (c :: rest) = (match splitClass rest with
        | none => none
        | some (pre, post) => some (c :: pre, post)) from by
          rw [splitClass.eq_def]; split <;> simp_all] at h
      revert h
      cases hs : splitClass rest with
      | none => intro h; simp at h
      | some pr =>
        obtain ⟨pre, post⟩ := pr
        intro h
        simp at h
        obtain ⟨rfl, rfl⟩ := h
        obtain ⟨heq, hmem⟩ := ih pre post hs
        constructor
        · rw [heq]; rfl
        · intro hm
          rcases List.mem_cons.mp hm with h1 | h1
          · exact hc h1.symm
          · exact hmem h1

/-- Scanning an all-plain brace body finds its closing `\x7d`. -/
theorem splitBrace_append (inner : List Char)
    (h : ∀ c ∈ inner, c ≠ '\x7b' ∧ c ≠ '\x7d') (tail : List Char) :
    splitBrace 0 (inner ++ '\x7d' :: tail) = some (inner, tail) := by
  induction inner with
  | nil =>
    rw [List.nil_append, splitBrace.eq_def]
    simp
  | cons c rest ih =>
    obtain ⟨h1, h2⟩ := h c (List.mem_cons_self c rest)
    rw [List.cons_append, splitBrace.eq_def]
    simp only [h1, h2, beq_iff_eq, if_false]
    rw [ih (fun x hx => h x (List.mem_cons_of_mem _ hx))]

/-- The scanner consults `compile` only to expand brace groups, so on a
brace-free input its result does not depend on `compile` at all. -/
theorem globScan_comp_irrel (comp1 comp2 : List Char → Option (List Char)) :
    ∀ (n : Nat) (l : List Char), l.length ≤ n → '\x7b' ∉ l →
    globScan comp1 .normal l = globScan comp2 .normal l := by
  intro n
  induction n with
  | zero =>
    intro l hl _
    have : l = [] := List.length_eq_zero.mp (Nat.le_zero.mp hl)
    subst this
    rfl
  | succ n ih =>
    intro l hl hnb
    cases l with
    | nil => rfl
    | cons c rest =>
      have hnbrest : '\x7b' ∉ rest := fun h => hnb (List.mem_cons_of_mem _ h)
      by_cases hstar : c = '*'
      · subst hstar
        cases rest with
        | nil => rfl
        | cons c2 rest2 =>
          have hnb2 : '\x7b' ∉ rest2 := fun h => hnbrest (List.mem_cons_of_mem _ h)
          by_cases h2 : c2 = '*'
          · subst h2
            cases rest2 with
            | nil => rfl
            | cons c3 rest3 =>
              have hnb3 : '\x7b' ∉ rest3 := fun h => hnb2 (List.mem_cons_of_mem _ h)
              by_cases h3 : c3 = '/'
              · subst h3
                show (globScan comp1 .normal rest3).map (fun t => (".*".data) ++ t)
                  = (globScan comp2 .normal rest3).map (fun t => (".*".data) ++ t)
                rw [ih rest3 (by simp at hl; omega) hnb3]
              · rw [globScan_star2_cons comp1 c3 rest3 h3,
                  globScan_star2_cons comp2 c3 rest3 h3,
                  ih (c3 :: rest3) (by simp at hl ⊢; omega) hnb2]
          · rw [globScan_star1_cons comp1 c2 rest2 h2,
              globScan_star1_cons comp2 c2 rest2 h2,
              ih (c2 :: rest2) (by simp at hl ⊢; omega) hnbrest]
      · by_cases hq : c = '?'
        · subst hq
          show (globScan comp1 .normal rest).map (fun t => ("[^/]".data) ++ t)
            = (globScan comp2 .normal rest).map (fun t => ("[^/]".data) ++ t)
          rw [ih rest (by simp at hl; omega) hnbrest]
        · by_cases hcl : c = '['
          · subst hcl
            rw [globScan_class_entry comp1, globScan_class_entry comp2,
              globScan_inClass_eq comp1 rest [], globScan_inClass_eq comp2 rest []]
            cases hsc : splitClass rest with
            | none => rfl
            | some pr =>
              obtain ⟨content, after⟩ := pr
              obtain ⟨heq, -⟩ := splitClass_eq rest content after hsc
              have hlen := splitClass_length rest content after hsc
              have hnba : '\x7b' ∉ after := fun h => hnbrest (by
                rw [heq]
                exact List.mem_append_right _ (List.mem_cons_of_mem _ h))
              dsimp only
              rw [ih after (by simp at hl; omega) hnba]
          · have hbr : c ≠ '\x7b' := fun h => hnb (h ▸ List.mem_cons_self c rest)
            rw [globScan_other comp1 c rest hstar hq hcl hbr,
              globScan_other comp2 c rest hstar hq hcl hbr,
              ih rest (by simp at hl; omega) hnbrest]

/-- On a brace-free pattern whose normalised form is also brace-free, the
fuelled compiler is fuel-independent: every positive fuel gives the
`GlobToRegex` value. -/
theorem globCompileFuel_eq_of_flat (norm : List Char → Option (List Char))
    (part : List Char) (hp : '\x7b' ∉ part)
    (hn : ∀ lit, norm part = some lit → '\x7b' ∉ lit) :
    ∀ f, globCompileFuel norm (f + 1) part = GlobToRegex norm part := by
  intro f
  rw [GlobToRegex, globCompileFuel_succ, globCompileFuel_succ]
  cases hq : (if ContainsGlob part then some part else norm part) with
  | none => rfl
  | some q =>
    dsimp only
    have hqb : '\x7b' ∉ q := by
      by_cases hg : ContainsGlob part = true
      · rw [if_pos hg] at hq
        injection hq with h
        subst h
        exact hp
      · rw [if_neg hg] at hq
        exact hn q hq
    rw [globScan_comp_irrel (fun pt => globCompileFuel norm f pt)
      (fun pt => globCompileFuel norm part.length pt) q.length q le_rfl hqb]

theorem CleanSeq.append {a b : List Char} (ha : CleanSeq a) (hb : CleanSeq b) :
    CleanSeq (a ++ b) := by
  induction ha with
  | nil => simpa using hb
  | esc c rest hrest ih => exact CleanSeq.esc c (rest ++ b) ih
  | cls content rest hmem hrest ih =>
    show CleanSeq ('[' :: ((content ++ ']' :: rest) ++ b))
    rw [List.append_assoc]
    exact CleanSeq.cls content (rest ++ b) hmem ih
  | chr c rest h1 h2 h3 h4 h5 hrest ih => exact CleanSeq.chr c (rest ++ b) h1 h2 h3 h4 h5 ih

/-- On a brace-free input, every body the scanner emits is clean. -/
theorem globScan_clean (comp : List Char → Option (List Char)) :
    ∀ (n : Nat) (l : List Char), l.length ≤ n → '\x7b' ∉ l →
    ∀ body, globScan comp .normal l = some body → CleanSeq body := by
  intro n
  induction n with
  | zero =>
    intro l hl _ body h
    have hln : l = [] := List.length_eq_zero.mp (Nat.le_zero.mp hl)
    subst hln
    have hb : body = [] := by
      have h2 : some ([] : List Char) = some body := h
      simpa using h2
    subst hb
    exact CleanSeq.nil
  | succ n ih =>
    intro l hl hnb body h
    cases l with
    | nil =>
      have hb : body = [] := by
        have h2 : some ([] : List Char) = some body := h
        simpa using h2
      subst hb
      exact CleanSeq.nil
    | cons c rest =>
      have hnbrest : '\x7b' ∉ rest := fun hm => hnb (List.mem_cons_of_mem _ hm)
      by_cases hstar : c = '*'
      · subst hstar
        cases rest with
        | nil =>
          have hb : body = ("[^/]*".data) := by
            have h2 : some (("[^/]*".data)) = some body := h
            simpa using h2.symm
          subst hb
          exact CleanSeq.cls ['^', '/'] ['*'] (by decide)
            (CleanSeq.chr '*' [] (by decide) (by decide) (by decide) (by decide)
              (by decide) CleanSeq.nil)
        | cons c2 rest2 =>
          have hnb2 : '\x7b' ∉ rest2 := fun hm => hnbrest (List.mem_cons_of_mem _ hm)
          by_cases h2 : c2 = '*'
          · subst h2
            cases rest2 with
            | nil =>
              have hb : body = (".*".data) := by
                have h2 : some ((".*".data)) = some body := h
                simpa using h2.symm
              subst hb
              exact CleanSeq.chr '.' ['*'] (by decide) (by decide) (by decide)
                (by decide) (by decide)
                (CleanSeq.chr '*' [] (by decide) (by decide) (by decide) (by decide)
                  (by decide) CleanSeq.nil)
            | cons c3 rest3 =>
              have hnb3 : '\x7b' ∉ rest3 := fun hm => hnb2 (List.mem_cons_of_mem _ hm)
              by_cases h3 : c3 = '/'
              · subst h3
                have h4 : (globScan comp .normal rest3).map
                    (fun t => (".*".data) ++ t) = some body := h
                obtain ⟨t, ht, hbody⟩ := Option.map_eq_some'.mp h4
                rw [← hbody]
                show CleanSeq ('.' :: '*' :: t)
                exact CleanSeq.chr '.' ('*' :: t) (by decide) (by decide) (by decide)
                  (by decide) (by decide)
                  (CleanSeq.chr '*' t (by decide) (by decide) (by decide) (by decide)
                    (by decide) (ih rest3 (by simp at hl; omega) hnb3 t ht))
              · rw [globScan_star2_cons comp c3 rest3 h3] at h
                obtain ⟨t, ht, hbody⟩ := Option.map_eq_some'.mp h
                rw [← hbody]
                show CleanSeq ('.' :: '*' :: t)
                exact CleanSeq.chr '.' ('*' :: t) (by decide) (by decide) (by decide)
                  (by decide) (by decide)
                  (CleanSeq.chr '*' t (by decide) (by decide) (by decide) (by decide)
                    (by decide)
                    (ih (c3 :: rest3) (by simp at hl ⊢; omega) hnb2 t ht))
          · rw [globScan_star1_cons comp c2 rest2 h2] at h
            obtain ⟨t, ht, hbody⟩ := Option.map_eq_some'.mp h
            rw [← hbody]
            show CleanSeq ('[' :: (['^', '/'] ++ ']' :: ('*' :: t)))
            exact CleanSeq.cls ['^', '/'] ('*' :: t) (by decide)
              (CleanSeq.chr '*' t (by decide) (by decide) (by decide) (by decide)
                (by decide)
                (ih (c2 :: rest2) (by simp at hl ⊢; omega) hnbrest t ht))
      · by_cases hq : c = '?'
        · subst hq
          have h4 : (globScan comp .normal rest).map
              (fun t => ("[^/]".data) ++ t) = some body := h
          obtain ⟨t, ht, hbody⟩ := Option.map_eq_some'.mp h4
          rw [← hbody]
          show CleanSeq ('[' :: (['^', '/'] ++ ']' :: t))
          exact CleanSeq.cls ['^', '/'] t (by decide)
            (ih rest (by simp at hl; omega) hnbrest t ht)
        · by_cases hcl : c = '['
          · subst hcl
            rw [globScan_class_entry comp, globScan_inClass_eq comp rest []] at h
            revert h
            cases hsc : splitClass rest with
            | none => intro h; simp at h
            | some pr =>
              obtain ⟨content, after⟩ := pr
              intro h
              dsimp only at h
              simp only [List.reverse_nil, List.nil_append] at h
              obtain ⟨heq, hmem⟩ := splitClass_eq rest content after hsc
              have hlen := splitClass_length rest content after hsc
              have hnba : '\x7b' ∉ after := fun hm => hnbrest (by
                rw [heq]
                exact List.mem_append_right _ (List.mem_cons_of_mem _ hm))
              obtain ⟨t, ht, hbody⟩ := Option.map_eq_some'.mp h
              rw [← hbody]
              exact CleanSeq.cls content t hmem
                (ih after (by simp at hl; omega) hnba t ht)
          · have hbr : c ≠ '\x7b' := fun hm => hnb (hm ▸ List.mem_cons_self c rest)
            rw [globScan_other comp c rest hstar hq hcl hbr] at h
            obtain ⟨t, ht, hbody⟩ := Option.map_eq_some'.mp h
            rw [← hbody]
            have hct := ih rest (by simp at hl; omega) hnbrest t ht
            by_cases hesc : escapedChars.contains c = true
            · rw [if_pos hesc]
              exact CleanSeq.esc c t hct
            · rw [if_neg hesc]
              have hne : ∀ x : Char, escapedChars.contains x = true → c ≠ x :=
                fun x hx hcx => hesc (hcx ▸ hx)
              exact CleanSeq.chr c t (hne '\\' (by decide)) hcl (hne '(' (by decide))
                (hne ')' (by decide)) (hne '|' (by decide)) hct

/-- A group body on its way through `scanGroup`, one atom at a time. -/
theorem scanGroup_true_pass (content : List Char) (h : ']' ∉ content) :
    ∀ (d : Nat) (Y : List Char),
    scanGroup true d (content ++ ']' :: Y) =
      (match scanGroup false d Y with
       | none => none
       | some (i, r) => some (content ++ ']' :: i, r)) := by
  induction content with
  | nil =>
    intro d Y
    rw [List.nil_append, scanGroup_true_close]
    cases scanGroup false d Y with
    | none => rfl
    | some pr => obtain ⟨i, r⟩ := pr; simp
  | cons c content2 ihc =>
    intro d Y
    have hc : c ≠ ']' := fun hh => h (hh ▸ List.mem_cons_self c content2)
    rw [List.cons_append, scanGroup_true_other d c _ hc,
      ihc (fun hm => h (List.mem_cons_of_mem _ hm)) d Y]
    cases scanGroup false d Y with
    | none => rfl
    | some pr => obtain ⟨i, r⟩ := pr; simp

/-- `scanGroup` walks straight through a clean chunk. -/
theorem scanGroup_pass {b : List Char} (hb : CleanSeq b) :
    ∀ (X : List Char), scanGroup false 0 (b ++ X)
      = (match scanGroup false 0 X with
         | none => none
         | some (i, r) => some (b ++ i, r)) := by
  induction hb with
  | nil =>
    intro X
    rw [List.nil_append]
    cases scanGroup false 0 X with
    | none => rfl
    | some pr => obtain ⟨i, r⟩ := pr; simp
  | esc c rest hrest ih =>
    intro X
    show scanGroup false 0 ('\\' :: c :: (rest ++ X)) = _
    rw [scanGroup_false_esc, ih X]
    cases scanGroup false 0 X with
    | none => rfl
    | some pr => obtain ⟨i, r⟩ := pr; simp
  | cls content rest hmem hrest ih =>
    intro X
    show scanGroup false 0 ('[' :: ((content ++ ']' :: rest) ++ X)) = _
    rw [List.append_assoc, List.cons_append, scanGroup_false_class,
      scanGroup_true_pass content hmem 0 (rest ++ X), ih X]
    cases scanGroup false 0 X with
    | none => rfl
    | some pr => obtain ⟨i, r⟩ := pr; simp
  | chr c rest h1 h2 h3 h4 h5 hrest ih =>
    intro X
    show scanGroup false 0 (c :: (rest ++ X)) = _
    rw [scanGroup_false_other 0 c (rest ++ X) h1 h2 h3 h4, ih X]
    cases scanGroup false 0 X with
    | none => rfl
    | some pr => obtain ⟨i, r⟩ := pr; simp

/-- `scanGroup` recovers an alternation body and its closing `)`. -/
theorem scanGroup_alts : ∀ (bodies : List (List Char)), (∀ b ∈ bodies, CleanSeq b) →
    ∀ (tail : List Char),
    scanGroup false 0 (List.intercalate ['|'] bodies ++ ')' :: tail)
      = some (List.intercalate ['|'] bodies, tail) := by
  intro bodies
  induction bodies with
  | nil =>
    intro _ tail
    rw [show List.intercalate ['|'] ([] : List (List Char)) = [] from by
      simp [List.intercalate]]
    rw [List.nil_append, scanGroup_false_close0]
  | cons b rest ihb =>
    intro h tail
    cases rest with
    | nil =>
      rw [intercalate_single,
        scanGroup_pass (h b (List.mem_cons_self b [])) (')' :: tail),
        scanGroup_false_close0]
      simp
    | cons b2 r =>
      rw [intercalate_cons2, List.append_assoc,
        scanGroup_pass (h b (List.mem_cons_self b _))
          ((['|'] ++ List.intercalate ['|'] (b2 :: r)) ++ ')' :: tail)]
      rw [show (['|'] ++ List.intercalate ['|'] (b2 :: r)) ++ ')' :: tail
          = '|' :: (List.intercalate ['|'] (b2 :: r) ++ ')' :: tail) from by simp]
      rw [scanGroup_false_other 0 '|' _ (by decide) (by decide) (by decide) (by decide),
        ihb (fun x hx => h x (List.mem_cons_of_mem _ hx)) tail]
      simp

theorem consHead_ne_nil (c : Char) (L : List (List Char)) : consHead c L ≠ [] := by
  cases L <;> simp [consHead]

theorem splitAlts_ne_nil (b : Bool) (d : Nat) (l : List Char) :
    splitAlts b d l ≠ [] := by
  rw [splitAlts.eq_def]
  split <;> simp_all [consHead_ne_nil]

theorem consHead_eq_prependAlt (c : Char) (L : List (List Char)) :
    consHead c L = prependAlt [c] L := by
  cases L <;> rfl

theorem prependAlt_prependAlt (a b : List Char) (L : List (List Char)) :
    prependAlt a (prependAlt b L) = prependAlt (a ++ b) L := by
  cases L <;> simp [prependAlt, List.append_assoc]

theorem consHead_prependAlt (c : Char) (b : List Char) (L : List (List Char)) :
    consHead c (prependAlt b L) = prependAlt (c :: b) L := by
  cases L <;> simp [consHead, prependAlt]

theorem splitAlts_true_pass (content : List Char) (h : ']' ∉ content) :
    ∀ (d : Nat) (Y : List Char),
    splitAlts true d (content ++ ']' :: Y)
      = prependAlt (content ++ [']']) (splitAlts false d Y) := by
  induction content with
  | nil =>
    intro d Y
    rw [List.nil_append, splitAlts_true_close, consHead_eq_prependAlt]
    rfl
  | cons c content2 ihc =>
    intro d Y
    have hc : c ≠ ']' := fun hh => h (hh ▸ List.mem_cons_self c content2)
    rw [List.cons_append, splitAlts_true_other d c _ hc,
      ihc (fun hm => h (List.mem_cons_of_mem _ hm)) d Y, consHead_prependAlt]
    rfl

/-- `splitAlts` walks straight through a clean chunk. -/
theorem splitAlts_pass {b : List Char} (hb : CleanSeq b) :
    ∀ (X : List Char), splitAlts false 0 (b ++ X) = prependAlt b (splitAlts false 0 X) := by
  induction hb with
  | nil =>
    intro X
    rw [List.nil_append]
    cases hL : splitAlts false 0 X with
    | nil => exact absurd hL (splitAlts_ne_nil false 0 X)
    | cons a as => simp [prependAlt]
  | esc c rest hrest ih =>
    intro X
    show splitAlts false 0 ('\\' :: c :: (rest ++ X)) = _
    rw [splitAlts_false_esc, ih X, consHead_prependAlt, consHead_prependAlt]
  | cls content rest hmem hrest ih =>
    intro X
    show splitAlts false 0 ('[' :: ((content ++ ']' :: rest) ++ X)) = _
    rw [List.append_assoc, List.cons_append, splitAlts_false_class,
      splitAlts_true_pass content hmem 0 (rest ++ X), ih X,
      prependAlt_prependAlt, consHead_prependAlt]
    simp [List.append_assoc]
  | chr c rest h1 h2 h3 h4 h5 hrest ih =>
    intro X
    show splitAlts false 0 (c :: (rest ++ X)) = _
    rw [splitAlts_false_other 0 c (rest ++ X) h1 h2 h3 h4 h5, ih X, consHead_prependAlt]

/-- `splitAlts` recovers exactly the alternatives that were intercalated. -/
theorem splitAlts_intercalate : ∀ (bodies : List (List Char)),
    (∀ b ∈ bodies, CleanSeq b) → bodies ≠ [] →
    splitAlts false 0 (List.intercalate ['|'] bodies) = bodies := by
  intro bodies
  induction bodies with
  | nil => intro _ hne; exact absurd rfl hne
  | cons b rest ihb =>
    intro h _
    cases rest with
    | nil =>
      calc splitAlts false 0 (List.intercalate ['|'] [b])
          = splitAlts false 0 (b ++ []) := by rw [intercalate_single, List.append_nil]
        _ = prependAlt b (splitAlts false 0 []) :=
            splitAlts_pass (h b (List.mem_cons_self b [])) []
        _ = [b] := by simp [prependAlt, splitAlts]
    | cons b2 r =>
      rw [intercalate_cons2,
        splitAlts_pass (h b (List.mem_cons_self b _))
          (['|'] ++ List.intercalate ['|'] (b2 :: r))]
      rw [show (['|'] ++ List.intercalate ['|'] (b2 :: r))
          = '|' :: List.intercalate ['|'] (b2 :: r) from rfl]
      rw [splitAlts_false_pipe0,
        ihb (fun x hx => h x (List.mem_cons_of_mem _ hx)) (by simp)]
      simp [prependAlt]

theorem mapM_some {α β : Type} (f : α → Option β) (g : α → β) :
    ∀ (l : List α), (∀ x ∈ l, f x = some (g x)) → l.mapM f = some (l.map g) := by
  intro l
  induction l with
  | nil => intro _; rfl
  | cons a as ih =>
    intro h
    rw [List.mapM_cons, h a (List.mem_cons_self a as),
      ih (fun x hx => h x (List.mem_cons_of_mem _ hx))]
    rfl

theorem stripAnchors_wrap (body : List Char) :
    stripAnchors ('^' :: (body ++ ['$'])) = body := by
  show stripDollar (body ++ ['$']) = body
  rw [stripDollar]
  simp [List.getLast?_concat, List.dropLast_concat]

theorem GlobToRegex_clean (norm : List Char → Option (List Char)) (part r : List Char)
    (hp : '\x7b' ∉ part) (hn : ∀ lit, norm part = some lit → '\x7b' ∉ lit)
    (h : GlobToRegex norm part = some r) :
    ∃ body, r = '^' :: (body ++ ['$']) ∧ CleanSeq body := by
  rw [GlobToRegex, globCompileFuel_succ] at h
  revert h
  cases hq : (if ContainsGlob part then some part else norm part) with
  | none => intro h; simp at h
  | some q =>
    intro h
    dsimp only at h
    have hqb : '\x7b' ∉ q := by
      by_cases hg : ContainsGlob part = true
      · rw [if_pos hg] at hq
        injection hq with h2
        subst h2
        exact hp
      · rw [if_neg hg] at hq
        exact hn q hq
    revert h
    cases hs : globScan (fun pt => globCompileFuel norm part.length pt)
        ScanMode.normal q with
    | none => intro h; simp at h
    | some body =>
      intro h
      simp at h
      exact ⟨body, h.symm, globScan_clean _ q.length q le_rfl hqb body hs⟩

theorem MatchGlob_eq_of_compile (norm : List Char → Option (List Char))
    (p body s : List Char) (h : GlobToRegex norm p = some ('^' :: (body ++ ['$']))) :
    MatchGlob norm p s
      = some (reMatch ((body ++ ['$']).length + s.length + 1) (body ++ ['$']) s) := by
  unfold MatchGlob
  rw [h]
  rfl

/-- Compiling a flat brace alternation: the comma-separated alternatives are
recursively compiled, de-anchored, and joined with `|` inside a group. -/
theorem GlobToRegex_brace_compile (norm : List Char → Option (List Char))
    (parts : List (List Char))
    (hne : parts ≠ [])
    (hflat : ∀ part ∈ parts, ∀ c ∈ part, c ≠ ',' ∧ c ≠ '\x7b' ∧ c ≠ '\x7d')
    (hnorm : ∀ part ∈ parts, ∀ lit, norm part = some lit → '\x7b' ∉ lit)
    (hok : ∀ part ∈ parts, GlobToRegex norm part ≠ none) :
    GlobToRegex norm ('\x7b' :: (List.intercalate [','] parts ++ ['\x7d']))
      = some ('^' :: (('(' :: (List.intercalate ['|']
          (parts.map (fun part => ((GlobToRegex norm part).map stripAnchors).getD []))
          ++ [')'])) ++ ['$'])) := by
  have hI : ∀ c ∈ List.intercalate [','] parts, c ≠ '\x7b' ∧ c ≠ '\x7d' := by
    intro c hc
    rcases mem_intercalate_single parts hc with rfl | ⟨part, hp, hcp⟩
    · exact ⟨by decide, by decide⟩
    · exact ⟨(hflat part hp c hcp).2.1, (hflat part hp c hcp).2.2⟩
  have hcomma : ∀ l ∈ parts, ',' ∉ l :=
    fun l hl hm => (hflat l hl ',' hm).1 rfl
  have hg : ContainsGlob ('\x7b' :: (List.intercalate [','] parts ++ ['\x7d'])) = true :=
    List.any_eq_true.mpr ⟨'\x7b', List.mem_cons_self _ _, by decide⟩
  have hfg : ∀ part ∈ parts,
      (globCompileFuel norm ((List.intercalate [','] parts ++ ['\x7d']).length + 1)
        part).map stripAnchors
      = some (((GlobToRegex norm part).map stripAnchors).getD []) := by
    intro part hp
    have hpb : '\x7b' ∉ part := fun hm => (hflat part hp '\x7b' hm).2.1 rfl
    rw [globCompileFuel_eq_of_flat norm part hpb (hnorm part hp)]
    obtain ⟨r, hr⟩ := Option.ne_none_iff_exists'.mp (hok part hp)
    rw [hr]
    rfl
  have hmapm := mapM_some
    (fun part => (globCompileFuel norm
      ((List.intercalate [','] parts ++ ['\x7d']).length + 1) part).map stripAnchors)
    (fun part => ((GlobToRegex norm part).map stripAnchors).getD [])
    parts hfg
  rw [GlobToRegex, show ('\x7b' :: (List.intercalate [','] parts ++ ['\x7d'])).length
      = (List.intercalate [','] parts ++ ['\x7d']).length + 1 from rfl,
    globCompileFuel_succ, if_pos hg]
  dsimp only
  rw [globScan_brace_entry, globScan_inBrace_eq]
  rw [splitBrace_append (List.intercalate [','] parts) hI []]
  dsimp only
  simp only [List.reverse_nil, List.nil_append]
  rw [show ∀ c2 : List Char → Option (List Char),
      globScan c2 ScanMode.normal [] = some [] from fun _ => rfl]
  rw [braceResult]
  rw [List.splitOn_intercalate parts ',' hcomma hne]
  rw [hmapm]

theorem brace_bodies_clean (norm : List Char → Option (List Char))
    (parts : List (List Char))
    (hflat : ∀ part ∈ parts, ∀ c ∈ part, c ≠ ',' ∧ c ≠ '\x7b' ∧ c ≠ '\x7d')
    (hnorm : ∀ part ∈ parts, ∀ lit, norm part = some lit → '\x7b' ∉ lit)
    (hok : ∀ part ∈ parts, GlobToRegex norm part ≠ none) :
    ∀ b ∈ parts.map (fun part => ((GlobToRegex norm part).map stripAnchors).getD []),
      CleanSeq b := by
  intro b hb
  obtain ⟨part, hp, rfl⟩ := List.mem_map.mp hb
  obtain ⟨r, hr⟩ := Option.ne_none_iff_exists'.mp (hok part hp)
  have hpb : '\x7b' ∉ part := fun hm => (hflat part hp '\x7b' hm).2.1 rfl
  obtain ⟨body, hshape, hclean⟩ := GlobToRegex_clean norm part r hpb (hnorm part hp) hr
  rw [hr]
  show CleanSeq (stripAnchors r)
  rw [hshape, stripAnchors_wrap]
  exact hclean

theorem brace_part_compile (norm : List Char → Option (List Char))
    (parts : List (List Char))
    (hflat : ∀ part ∈ parts, ∀ c ∈ part, c ≠ ',' ∧ c ≠ '\x7b' ∧ c ≠ '\x7d')
    (hnorm : ∀ part ∈ parts, ∀ lit, norm part = some lit → '\x7b' ∉ lit)
    (hok : ∀ part ∈ parts, GlobToRegex norm part ≠ none) :
    ∀ part ∈ parts, GlobToRegex norm part
      = some ('^' :: ((((GlobToRegex norm part).map stripAnchors).getD []) ++ ['$'])) := by
  intro part hp
  obtain ⟨r, hr⟩ := Option.ne_none_iff_exists'.mp (hok part hp)
  have hpb : '\x7b' ∉ part := fun hm => (hflat part hp '\x7b' hm).2.1 rfl
  obtain ⟨body, hshape, hclean⟩ := GlobToRegex_clean norm part r hpb (hnorm part hp) hr
  rw [hr]
  show some r = some ('^' :: (stripAnchors r ++ ['$']))
  rw [hshape, stripAnchors_wrap]

theorem MatchGlob_true_iff_reMatch (norm : List Char → Option (List Char))
    (p body s : List Char)
    (h : GlobToRegex norm p = some ('^' :: (body ++ ['$']))) (F : Nat)
    (hF : (body ++ ['$']).length + s.length < F) :
    MatchGlob norm p s = some true ↔ reMatch F (body ++ ['$']) s = true := by
  rw [MatchGlob_eq_of_compile norm p body s h, Option.some_inj]
  rw [reMatch_congr ((body ++ ['$']).length + s.length) (body ++ ['$']) s le_rfl F
    ((body ++ ['$']).length + s.length + 1) hF (by omega)]

/-- C6 counterexample: brace alternations do NOT nest. The comma split of a
brace body is not depth-aware, so the nested alternation
`\x7ba,\x7bb,c\x7d\x7d` is cut into the fragments `a`, `\x7bb` and `c\x7d`,
the unclosed fragment `\x7bb` fails to compile, and the whole pattern is
rejected instead of matching `a`, `b` or `c`. -/
theorem GlobToRegex_brace_nested_fails :
    GlobToRegex idNorm (("\x7ba,\x7bb,c\x7d\x7d".data)) = none := rfl

/-- C6 (amended to flat alternations): for a brace alternation
`\x7bp1,...,pn\x7d` whose alternatives contain no comma and no brace, whose
normalised forms contain no brace, and each of which compiles, the compiled
pattern matches a string exactly when the compiled form of at least one
alternative matches it. -/
theorem GlobToRegex_braceAlt (norm : List Char → Option (List Char))
    (parts : List (List Char)) (s : List Char)
    (hne : parts ≠ [])
    (hflat : ∀ part ∈ parts, ∀ c ∈ part, c ≠ ',' ∧ c ≠ '\x7b' ∧ c ≠ '\x7d')
    (hnorm : ∀ part ∈ parts, ∀ lit, norm part = some lit → '\x7b' ∉ lit)
    (hok : ∀ part ∈ parts, GlobToRegex norm part ≠ none) :
    MatchGlob norm ('\x7b' :: (List.intercalate [','] parts ++ ['\x7d'])) s = some true
      ↔ ∃ part ∈ parts, MatchGlob norm part s = some true := by
  have hclean := brace_bodies_clean norm parts hflat hnorm hok
  have hGpart := brace_part_compile norm parts hflat hnorm hok
  have hbne : parts.map (fun part => ((GlobToRegex norm part).map stripAnchors).getD [])
      ≠ [] := fun h => hne (List.map_eq_nil_iff.mp h)
  rw [MatchGlob_eq_of_compile norm _
    ('(' :: (List.intercalate ['|'] (parts.map
      (fun part => ((GlobToRegex norm part).map stripAnchors).getD [])) ++ [')'])) s
    (GlobToRegex_brace_compile norm parts hne hflat hnorm hok)]
  rw [show ('(' :: (List.intercalate ['|'] (parts.map
      (fun part => ((GlobToRegex norm part).map stripAnchors).getD [])) ++ [')'])) ++ ['$']
    = '(' :: ((List.intercalate ['|'] (parts.map
      (fun part => ((GlobToRegex norm part).map stripAnchors).getD [])) ++ [')']) ++ ['$'])
    from rfl]
  rw [reMatch_group]
  rw [show (List.intercalate ['|'] (parts.map
      (fun part => ((GlobToRegex norm part).map stripAnchors).getD [])) ++ [')']) ++ ['$']
    = List.intercalate ['|'] (parts.map
      (fun part => ((GlobToRegex norm part).map stripAnchors).getD [])) ++ ')' :: ['$']
    from by rw [List.append_assoc]; rfl]
  rw [scanGroup_alts (parts.map
    (fun part => ((GlobToRegex norm part).map stripAnchors).getD [])) hclean ['$']]
  dsimp only
  rw [splitAlts_intercalate (parts.map
    (fun part => ((GlobToRegex norm part).map stripAnchors).getD [])) hclean hbne]
  rw [Option.some_inj, List.any_eq_true]
  constructor
  · rintro ⟨alt, halt, hre⟩
    obtain ⟨part, hp, rfl⟩ := List.mem_map.mp halt
    refine ⟨part, hp,
      (MatchGlob_true_iff_reMatch norm part _ s (hGpart part hp) _ ?_).mpr hre⟩
    have hle := length_le_intercalate '|' (parts.map
      (fun part => ((GlobToRegex norm part).map stripAnchors).getD []))
      (List.mem_map_of_mem _ hp)
    simp only [List.length_append, List.length_cons, List.length_nil]
    omega
  · rintro ⟨part, hp, hm⟩
    refine ⟨_, List.mem_map_of_mem _ hp,
      (MatchGlob_true_iff_reMatch norm part _ s (hGpart part hp) _ ?_).mp hm⟩
    have hle := length_le_intercalate '|' (parts.map
      (fun part => ((GlobToRegex norm part).map stripAnchors).getD []))
      (List.mem_map_of_mem _ hp)
    simp only [List.length_append, List.length_cons, List.length_nil]
    omega

/-- C6 witness: the flat alternation `\x7ba,b\x7d` matches `a` because its
alternative `a` matches in place. -/
theorem GlobToRegex_braceAlt_witness :
    MatchGlob idNorm (("\x7ba,b\x7d".data)) ("a".data) = some true := by
  have h := GlobToRegex_braceAlt idNorm [("a".data), ("b".data)] ("a".data)
    (by decide)
    (by decide)
    (by
      intro part hp lit hl
      injection hl with h2
      subst h2
      fin_cases hp <;> decide)
    (by intro part hp; fin_cases hp <;> decide)
  rw [show ("\x7ba,b\x7d".data)
      = '\x7b' :: (List.intercalate [','] [("a".data), ("b".data)] ++ ['\x7d']) from rfl]
  exact h.mpr ⟨("a".data), List.mem_cons_self _ _, rfl⟩

/-- C4 counterexample: a path entry containing a parenthesis defeats the
static balance check. The entry `/tmp/a)` is glob-free, so it is emitted
verbatim inside a `subpath` rule; the naive parenthesis counter counts the
`)` inside the quoted string, dips below zero on the rule line, and the
generated profile is rejected by the validator even though generation
succeeded. -/
theorem GenerateSeatbeltProfile_paren_counterexample :
    (GenerateSeatbeltProfile idNorm 8080 1080 false
        [("/tmp/a)".data)] [] [] [] false false false false).map
      (fun profile => validateStaticChecks profile) =
      some (some ("profile has unbalanced parentheses".data)) := rfl

/-! Parenthesis-counter algebra, towards the amended profile invariant. -/

theorem parenRun_open (c : Nat) (rest : List Char) :
    parenRun c ('(' :: rest) = parenRun (c + 1) rest := rfl

theorem parenRun_close (c : Nat) (rest : List Char) :
    parenRun c (')' :: rest) = if c == 0 then none else parenRun (c - 1) rest := rfl

theorem parenRun_other (c : Nat) (ch : Char) (rest : List Char)
    (h1 : ch ≠ '(') (h2 : ch ≠ ')') :
    parenRun c (ch :: rest) = parenRun c rest := by
  rw [parenRun.eq_def]
  split
  all_goals simp_all

theorem parenRun_append : ∀ (a : List Char) (c : Nat) (b : List Char),
    parenRun c (a ++ b) = (parenRun c a).bind (fun d => parenRun d b) := by
  intro a
  induction a with
  | nil => intro c b; rfl
  | cons ch a ih =>
    intro c b
    by_cases h1 : ch = '('
    · subst h1
      rw [List.cons_append, parenRun_open, parenRun_open, ih]
    · by_cases h2 : ch = ')'
      · subst h2
        rw [List.cons_append, parenRun_close, parenRun_close]
        cases c with
        | zero => rfl
        | succ k => simpa using ih k b
      · rw [List.cons_append, parenRun_other c ch _ h1 h2,
          parenRun_other c ch a h1 h2, ih]

/-- A chunk with no parenthesis at all leaves the counter unchanged. -/
theorem parenRun_parenFree : ∀ (l : List Char),
    (∀ ch ∈ l, ch ≠ '(' ∧ ch ≠ ')') → ∀ c, parenRun c l = some c := by
  intro l
  induction l with
  | nil => intro _ c; rfl
  | cons ch rest ih =>
    intro h c
    obtain ⟨h1, h2⟩ := h ch (List.mem_cons_self ch rest)
    rw [parenRun_other c ch rest h1 h2]
    exact ih (fun x hx => h x (List.mem_cons_of_mem _ hx)) c

/-- On a brace-free, parenthesis-free input the scanner emits no
parenthesis: every output character is copied from the input or drawn from
the fixed fragments `.* [^/]* [^/] \\`. -/
theorem globScan_parenFree (comp : List Char → Option (List Char)) :
    ∀ (n : Nat) (l : List Char), l.length ≤ n → '\x7b' ∉ l →
    (∀ ch ∈ l, ch ≠ '(' ∧ ch ≠ ')') →
    ∀ body, globScan comp .normal l = some body →
    ∀ ch ∈ body, ch ≠ '(' ∧ ch ≠ ')' := by
  intro n
  induction n with
  | zero =>
    intro l hl _ _ body h
    have hln : l = [] := List.length_eq_zero.mp (Nat.le_zero.mp hl)
    subst hln
    have hb : body = [] := by
      have h2 : some ([] : List Char) = some body := h
      simpa using h2.symm
    subst hb
    intro ch hch
    simp at hch
  | succ n ih =>
    intro l hl hnb hpf body h
    cases l with
    | nil =>
      have hb : body = [] := by
        have h2 : some ([] : List Char) = some body := h
        simpa using h2.symm
      subst hb
      intro ch hch
      simp at hch
    | cons c rest =>
      have hnbrest : '\x7b' ∉ rest := fun hm => hnb (List.mem_cons_of_mem _ hm)
      have hpfrest : ∀ ch ∈ rest, ch ≠ '(' ∧ ch ≠ ')' :=
        fun ch hm => hpf ch (List.mem_cons_of_mem _ hm)
      by_cases hstar : c = '*'
      · subst hstar
        cases rest with
        | nil =>
          have hb : body = ("[^/]*".data) := by
            have h2 : some (("[^/]*".data)) = some body := h
            simpa using h2.symm
          subst hb
          intro ch hch
          fin_cases hch <;> exact ⟨by decide, by decide⟩
        | cons c2 rest2 =>
          have hnb2 : '\x7b' ∉ rest2 := fun hm => hnbrest (List.mem_cons_of_mem _ hm)
          have hpf2 : ∀ ch ∈ rest2, ch ≠ '(' ∧ ch ≠ ')' :=
            fun ch hm => hpfrest ch (List.mem_cons_of_mem _ hm)
          by_cases h2 : c2 = '*'
          · subst h2
            cases rest2 with
            | nil =>
              have hb : body = (".*".data) := by
                have h3 : some ((".*".data)) = some body := h
                simpa using h3.symm
              subst hb
              intro ch hch
              fin_cases hch <;> exact ⟨by decide, by decide⟩
            | cons c3 rest3 =>
              have hnb3 : '\x7b' ∉ rest3 := fun hm => hnb2 (List.mem_cons_of_mem _ hm)
              have hpf3 : ∀ ch ∈ rest3, ch ≠ '(' ∧ ch ≠ ')' :=
                fun ch hm => hpf2 ch (List.mem_cons_of_mem _ hm)
              by_cases h3 : c3 = '/'
              · subst h3
                have h4 : (globScan comp .normal rest3).map
                    (fun t => (".*".data) ++ t) = some body := h
                obtain ⟨t, ht, hbody⟩ := Option.map_eq_some'.mp h4
                rw [← hbody]
                intro ch hch
                rcases List.mem_append.mp hch with hf | hmem
                · fin_cases hf <;> exact ⟨by decide, by decide⟩
                · exact ih rest3 (by simp at hl; omega) hnb3 hpf3 t ht ch hmem
              · rw [globScan_star2_cons comp c3 rest3 h3] at h
                obtain ⟨t, ht, hbody⟩ := Option.map_eq_some'.mp h
                rw [← hbody]
                intro ch hch
                rcases List.mem_append.mp hch with hf | hmem
                · fin_cases hf <;> exact ⟨by decide, by decide⟩
                · exact ih (c3 :: rest3) (by simp at hl ⊢; omega) hnb2 hpf2 t ht ch hmem
          · rw [globScan_star1_cons comp c2 rest2 h2] at h
            obtain ⟨t, ht, hbody⟩ := Option.map_eq_some'.mp h
            rw [← hbody]
            intro ch hch
            rcases List.mem_append.mp hch with hf | hmem
            · fin_cases hf <;> exact ⟨by decide, by decide⟩
            · exact ih (c2 :: rest2) (by simp at hl ⊢; omega) hnbrest hpfrest t ht ch hmem
      · by_cases hq : c = '?'
        · subst hq
          have h4 : (globScan comp .normal rest).map
              (fun t => ("[^/]".data) ++ t) = some body := h
          obtain ⟨t, ht, hbody⟩ := Option.map_eq_some'.mp h4
          rw [← hbody]
          intro ch hch
          rcases List.mem_append.mp hch with hf | hmem
          · fin_cases hf <;> exact ⟨by decide, by decide⟩
          · exact ih rest (by simp at hl; omega) hnbrest hpfrest t ht ch hmem
        · by_cases hcl : c = '['
          · subst hcl
            rw [globScan_class_entry comp, globScan_inClass_eq comp rest []] at h
            revert h
            cases hsc : splitClass rest with
            | none => intro h; simp at h
            | some pr =>
              obtain ⟨content, after⟩ := pr
              intro h
              dsimp only at h
              simp only [List.reverse_nil, List.nil_append] at h
              obtain ⟨heq, hmem⟩ := splitClass_eq rest content after hsc
              have hlen := splitClass_length rest content after hsc
              have hnba : '\x7b' ∉ after := fun hm => hnbrest (by
                rw [heq]
                exact List.mem_append_right _ (List.mem_cons_of_mem _ hm))
              have hpfa : ∀ ch ∈ after, ch ≠ '(' ∧ ch ≠ ')' := fun ch hm =>
                hpfrest ch (by
                  rw [heq]
                  exact List.mem_append_right _ (List.mem_cons_of_mem _ hm))
              obtain ⟨t, ht, hbody⟩ := Option.map_eq_some'.mp h
              rw [← hbody]
              intro ch hch
              rcases List.mem_cons.mp hch with rfl | hch2
              · exact ⟨by decide, by decide⟩
              · rcases List.mem_append.mp hch2 with hcc | hch3
                · exact hpfrest ch (by
                    rw [heq]
                    exact List.mem_append_left _ hcc)
                · rcases List.mem_cons.mp hch3 with rfl | hch4
                  · exact ⟨by decide, by decide⟩
                  · exact ih after (by simp at hl; omega) hnba hpfa t ht ch hch4
          · have hbr : c ≠ '\x7b' := fun hm => hnb (hm ▸ List.mem_cons_self c rest)
            rw [globScan_other comp c rest hstar hq hcl hbr] at h
            obtain ⟨t, ht, hbody⟩ := Option.map_eq_some'.mp h
            rw [← hbody]
            have hct := ih rest (by simp at hl; omega) hnbrest hpfrest t ht
            intro ch hch
            rcases List.mem_append.mp hch with hf | hmem
            · revert hf
              by_cases hesc : escapedChars.contains c = true
              · rw [if_pos hesc]
                intro hf
                rcases List.mem_cons.mp hf with rfl | hf2
                · exact ⟨by decide, by decide⟩
                · rcases List.mem_cons.mp hf2 with rfl | hf3
                  · exact hpf ch (List.mem_cons_self _ _)
                  · simp at hf3
              · rw [if_neg hesc]
                intro hf
                rcases List.mem_cons.mp hf with rfl | hf2
                · exact hpf ch (List.mem_cons_self _ _)
                · simp at hf2
            · exact hct ch hmem

theorem parenRun_neutral_append {a b : List Char}
    (ha : ∀ c, parenRun c a = some c) (hb : ∀ c, parenRun c b = some c) :
    ∀ c, parenRun c (a ++ b) = some c := by
  intro c
  rw [parenRun_append, ha c]
  exact hb c

theorem digitChar_ne_paren (m : Nat) :
    Nat.digitChar m ≠ '(' ∧ Nat.digitChar m ≠ ')' := by
  by_cases h : m < 16
  · interval_cases m <;> exact ⟨by decide, by decide⟩
  · obtain ⟨j, rfl⟩ : ∃ j, m = j + 16 := ⟨m - 16, by omega⟩
    have h16 : Nat.digitChar (j + 16) = '*' := rfl
    rw [h16]
    exact ⟨by decide, by decide⟩

theorem toDigitsCore_ne_paren (b : Nat) : ∀ (fuel n : Nat) (ds : List Char),
    (∀ ch ∈ ds, ch ≠ '(' ∧ ch ≠ ')') →
    ∀ ch ∈ Nat.toDigitsCore b fuel n ds, ch ≠ '(' ∧ ch ≠ ')' := by
  intro fuel
  induction fuel with
  | zero => intro n ds hds ch hch; exact hds ch hch
  | succ fuel ih =>
    intro n ds hds ch
    show ch ∈ (if n / b = 0 then Nat.digitChar (n % b) :: ds
      else Nat.toDigitsCore b fuel (n / b) (Nat.digitChar (n % b) :: ds)) → _
    by_cases hnb : n / b = 0
    · rw [if_pos hnb]
      intro hch
      rcases List.mem_cons.mp hch with rfl | h2
      · exact digitChar_ne_paren _
      · exact hds ch h2
    · rw [if_neg hnb]
      intro hch
      refine ih (n / b) (Nat.digitChar (n % b) :: ds) ?_ ch hch
      intro x hx
      rcases List.mem_cons.mp hx with rfl | h2
      · exact digitChar_ne_paren _
      · exact hds x h2

theorem natRepr_parenFree (n : Nat) :
    ∀ ch ∈ ((Nat.repr n).data), ch ≠ '(' ∧ ch ≠ ')' := by
  show ∀ ch ∈ Nat.toDigitsCore 10 (n + 1) n [], _
  exact toDigitsCore_ne_paren 10 (n + 1) n [] (by intro x hx; simp at hx)

/-- A compiled pattern contains no parenthesis when the pattern and its
normalised form are brace-free and parenthesis-free. -/
theorem GlobToRegex_parenFree (norm : List Char → Option (List Char)) (p r : List Char)
    (hp : '\x7b' ∉ p ∧ ∀ ch ∈ p, ch ≠ '(' ∧ ch ≠ ')')
    (hn : ∀ lit, norm p = some lit →
      '\x7b' ∉ lit ∧ ∀ ch ∈ lit, ch ≠ '(' ∧ ch ≠ ')')
    (h : GlobToRegex norm p = some r) :
    ∀ ch ∈ r, ch ≠ '(' ∧ ch ≠ ')' := by
  rw [GlobToRegex, globCompileFuel_succ] at h
  revert h
  cases hq : (if ContainsGlob p then some p else norm p) with
  | none => intro h; simp at h
  | some q =>
    intro h
    dsimp only at h
    have hqprop : '\x7b' ∉ q ∧ ∀ ch ∈ q, ch ≠ '(' ∧ ch ≠ ')' := by
      by_cases hg : ContainsGlob p = true
      · rw [if_pos hg] at hq
        injection hq with h2
        subst h2
        exact hp
      · rw [if_neg hg] at hq
        exact hn q hq
    revert h
    cases hs : globScan (fun pt => globCompileFuel norm p.length pt)
        ScanMode.normal q with
    | none => intro h; simp at h
    | some body =>
      intro h
      simp at h
      rw [← h]
      intro ch hch
      rcases List.mem_cons.mp hch with rfl | hch2
      · exact ⟨by decide, by decide⟩
      · rcases List.mem_append.mp hch2 with hbm | hdm
        · exact globScan_parenFree _ q.length q le_rfl hqprop.1 hqprop.2 body hs ch hbm
        · rcases List.mem_singleton.mp hdm with rfl
          exact ⟨by decide, by decide⟩

theorem specPathRule_neutral (norm : List Char → Option (List Char))
    (head path line : List Char)
    (hhead : ∀ ch ∈ head, ch ≠ '(' ∧ ch ≠ ')')
    (hp : '\x7b' ∉ path ∧ ∀ ch ∈ path, ch ≠ '(' ∧ ch ≠ ')')
    (hn : ∀ lit, norm path = some lit →
      '\x7b' ∉ lit ∧ ∀ ch ∈ lit, ch ≠ '(' ∧ ch ≠ ')')
    (h : specPathRule norm head path = some line) :
    ∀ c, parenRun c line = some c := by
  rw [specPathRule] at h
  by_cases hg : ContainsGlob path = true
  · rw [if_pos hg] at h
    obtain ⟨regex, hre, hline⟩ := Option.map_eq_some'.mp h
    rw [← hline]
    intro c
    have hrf := GlobToRegex_parenFree norm path regex hp hn hre
    simp only []
    rw [parenRun_append, parenRun_append, parenRun_append, parenRun_open,
      parenRun_parenFree head hhead (c + 1)]
    simp only [Option.some_bind]
    rw [show parenRun (c + 1) ((" (regex #\"".data)) = some (c + 1 + 1) from rfl]
    simp only [Option.some_bind]
    rw [parenRun_parenFree regex hrf (c + 1 + 1)]
    simp only [Option.some_bind]
    rfl
  · rw [if_neg hg] at h
    injection h with hline
    rw [← hline]
    intro c
    rw [parenRun_append, parenRun_append, parenRun_append, parenRun_open,
      parenRun_parenFree head hhead (c + 1)]
    simp only [Option.some_bind]
    rw [show parenRun (c + 1) ((" (subpath \"".data)) = some (c + 1 + 1) from rfl]
    simp only [Option.some_bind]
    rw [parenRun_parenFree path hp.2 (c + 1 + 1)]
    simp only [Option.some_bind]
    rfl

theorem specPathRules_neutral (norm : List Char → Option (List Char))
    (head : List Char) :
    ∀ (paths : List (List Char)) (rules : List Char),
    (∀ ch ∈ head, ch ≠ '(' ∧ ch ≠ ')') →
    (∀ path ∈ paths, '\x7b' ∉ path ∧ ∀ ch ∈ path, ch ≠ '(' ∧ ch ≠ ')') →
    (∀ path ∈ paths, ∀ lit, norm path = some lit →
      '\x7b' ∉ lit ∧ ∀ ch ∈ lit, ch ≠ '(' ∧ ch ≠ ')') →
    specPathRules norm head paths = some rules →
    ∀ c, parenRun c rules = some c := by
  intro paths
  induction paths with
  | nil =>
    intro rules _ _ _ h c
    have h2 : some ([] : List Char) = some rules := h
    injection h2 with h3
    rw [← h3]
    rfl
  | cons p rest ih =>
    intro rules hhead hp hn h
    rw [specPathRules, List.mapM_cons] at h
    revert h
    cases hr : specPathRule norm head p with
    | none => intro h; simp at h
    | some line =>
      cases hm : rest.mapM (specPathRule norm head) with
      | none => intro h; simp at h
      | some ls =>
        intro h
        simp at h
        rw [← h]
        have hrest : specPathRules norm head rest = some ls.flatten := by
          rw [specPathRules, hm]
          rfl
        exact parenRun_neutral_append
          (specPathRule_neutral norm head p line hhead
            (hp p (List.mem_cons_self p rest)) (hn p (List.mem_cons_self p rest)) hr)
          (ih ls.flatten hhead
            (fun x hx => hp x (List.mem_cons_of_mem _ hx))
            (fun x hx => hn x (List.mem_cons_of_mem _ hx)) hrest)

theorem codeSection_neutral (norm : List Char → Option (List Char))
    (header head : List Char) (paths : List (List Char)) (out : List Char)
    (hheader : ∀ ch ∈ header, ch ≠ '(' ∧ ch ≠ ')')
    (hhead : ∀ ch ∈ head, ch ≠ '(' ∧ ch ≠ ')')
    (hp : ∀ path ∈ paths, '\x7b' ∉ path ∧ ∀ ch ∈ path, ch ≠ '(' ∧ ch ≠ ')')
    (hn : ∀ path ∈ paths, ∀ lit, norm path = some lit →
      '\x7b' ∉ lit ∧ ∀ ch ∈ lit, ch ≠ '(' ∧ ch ≠ ')')
    (h : (if paths.isEmpty then some [] else
      match emitPathRules norm head paths with
      | none => none
      | some rules => some (header ++ rules ++ ("\n".data))) = some out) :
    ∀ c, parenRun c out = some c := by
  revert h
  by_cases he : paths.isEmpty
  · rw [if_pos he]
    intro h
    injection h with h2
    rw [← h2]
    intro c
    rfl
  · rw [if_neg he, emitPathRules_eq]
    cases hr : specPathRules norm head paths with
    | none => intro h; simp at h
    | some rules =>
      intro h
      injection h with h2
      rw [← h2]
      exact parenRun_neutral_append
        (parenRun_neutral_append (parenRun_parenFree header hheader)
          (specPathRules_neutral norm head paths rules hhead hp hn hr))
        (fun c => rfl)

theorem parenRun_ite_neutral (b : Bool) (t : List Char)
    (ht : ∀ c, parenRun c t = some c) :
    ∀ c, parenRun c (if b then t else []) = some c := by
  cases b with
  | false => intro c; rfl
  | true => exact ht

/-- C4 (amended): on every input whose path entries — and their normalised
forms — contain no parenthesis and no brace, a successfully generated
profile passes all three static checks: it contains the version
declaration, its parentheses are balanced under the running counter, and it
contains a deny statement. Entries containing a parenthesis break the
second check (see the counterexample), because the counter also counts
parentheses inside quoted path strings. -/
theorem GenerateSeatbeltProfile_static_valid
    (norm : List Char → Option (List Char))
    (httpProxyPort socksProxyPort : Nat) (enableProxy : Bool)
    (denyReadPaths allowWritePaths denyWritePaths allowUnlinkPaths : List (List Char))
    (allowFork allowSysctlRead allowMachLookup allowPosixShm : Bool)
    (hp : ∀ path ∈ denyReadPaths ++ allowWritePaths ++ denyWritePaths ++ allowUnlinkPaths,
      '\x7b' ∉ path ∧ ∀ ch ∈ path, ch ≠ '(' ∧ ch ≠ ')')
    (hn : ∀ path ∈ denyReadPaths ++ allowWritePaths ++ denyWritePaths ++ allowUnlinkPaths,
      ∀ lit, norm path = some lit → '\x7b' ∉ lit ∧ ∀ ch ∈ lit, ch ≠ '(' ∧ ch ≠ ')')
    (profile : List Char)
    (h : GenerateSeatbeltProfile norm httpProxyPort socksProxyPort enableProxy
      denyReadPaths allowWritePaths denyWritePaths allowUnlinkPaths
      allowFork allowSysctlRead allowMachLookup allowPosixShm = some profile) :
    validateStaticChecks profile = none := by
  have hp1 : ∀ path ∈ denyReadPaths, '\x7b' ∉ path ∧ ∀ ch ∈ path, ch ≠ '(' ∧ ch ≠ ')' :=
    fun path hm => hp path
      (List.mem_append_left _ (List.mem_append_left _ (List.mem_append_left _ hm)))
  have hp2 : ∀ path ∈ allowWritePaths, '\x7b' ∉ path ∧ ∀ ch ∈ path, ch ≠ '(' ∧ ch ≠ ')' :=
    fun path hm => hp path
      (List.mem_append_left _ (List.mem_append_left _ (List.mem_append_right _ hm)))
  have hp3 : ∀ path ∈ denyWritePaths, '\x7b' ∉ path ∧ ∀ ch ∈ path, ch ≠ '(' ∧ ch ≠ ')' :=
    fun path hm => hp path (List.mem_append_left _ (List.mem_append_right _ hm))
  have hp4 : ∀ path ∈ allowUnlinkPaths, '\x7b' ∉ path ∧ ∀ ch ∈ path, ch ≠ '(' ∧ ch ≠ ')' :=
    fun path hm => hp path (List.mem_append_right _ hm)
  have hn1 : ∀ path ∈ denyReadPaths, ∀ lit, norm path = some lit →
      '\x7b' ∉ lit ∧ ∀ ch ∈ lit, ch ≠ '(' ∧ ch ≠ ')' :=
    fun path hm => hn path
      (List.mem_append_left _ (List.mem_append_left _ (List.mem_append_left _ hm)))
  have hn2 : ∀ path ∈ allowWritePaths, ∀ lit, norm path = some lit →
      '\x7b' ∉ lit ∧ ∀ ch ∈ lit, ch ≠ '(' ∧ ch ≠ ')' :=
    fun path hm => hn path
      (List.mem_append_left _ (List.mem_append_left _ (List.mem_append_right _ hm)))
  have hn3 : ∀ path ∈ denyWritePaths, ∀ lit, norm path = some lit →
      '\x7b' ∉ lit ∧ ∀ ch ∈ lit, ch ≠ '(' ∧ ch ≠ ')' :=
    fun path hm => hn path (List.mem_append_left _ (List.mem_append_right _ hm))
  have hn4 : ∀ path ∈ allowUnlinkPaths, ∀ lit, norm path = some lit →
      '\x7b' ∉ lit ∧ ∀ ch ∈ lit, ch ≠ '(' ∧ ch ≠ ')' :=
    fun path hm => hn path (List.mem_append_right _ hm)
  rw [GenerateSeatbeltProfile] at h
  revert h
  cases hS1 : (if denyReadPaths.isEmpty then some [] else
      match emitPathRules norm ("deny file-read*".data) denyReadPaths with
      | none => none
      | some rules =>
        some (("; Deny specific read paths\n".data) ++ rules ++ ("\n".data))) with
  | none => intro h; simp at h
  | some readDeny =>
  cases hS2 : (if allowWritePaths.isEmpty then some [] else
      match emitPathRules norm ("allow file-write*".data) allowWritePaths with
      | none => none
      | some rules =>
        some (("; Allow writes to specific paths\n".data) ++ rules ++ ("\n".data))) with
  | none => intro h; simp at h
  | some writeAllow =>
  cases hS3 : (if denyWritePaths.isEmpty then some [] else
      match emitPathRules norm ("deny file-write*".data) denyWritePaths with
      | none => none
      | some rules =>
        some (("; Deny specific writes within allowed paths\n".data)
          ++ rules ++ ("\n".data))) with
  | none => intro h; simp at h
  | some writeDeny =>
  cases hS4 : (if allowUnlinkPaths.isEmpty then some [] else
      match emitPathRules norm ("allow file-write-unlink".data) allowUnlinkPaths with
      | none => none
      | some rules =>
        some (("; Allow unlink in specific paths\n".data) ++ rules ++ ("\n".data))) with
  | none => intro h; simp at h
  | some unlinkAllow =>
  intro h
  dsimp only at h
  injection h with h2
  have hrd := codeSection_neutral norm ("; Deny specific read paths\n".data)
    ("deny file-read*".data) denyReadPaths readDeny (by decide) (by decide) hp1 hn1 hS1
  have hwa := codeSection_neutral norm ("; Allow writes to specific paths\n".data)
    ("allow file-write*".data) allowWritePaths writeAllow (by decide) (by decide) hp2 hn2 hS2
  have hwd := codeSection_neutral norm ("; Deny specific writes within allowed paths\n".data)
    ("deny file-write*".data) denyWritePaths writeDeny (by decide) (by decide) hp3 hn3 hS3
  have hua := codeSection_neutral norm ("; Allow unlink in specific paths\n".data)
    ("allow file-write-unlink".data) allowUnlinkPaths unlinkAllow (by decide) (by decide)
    hp4 hn4 hS4
  have hnet : ∀ c, parenRun c (if enableProxy then
      ("; Network - deny all except proxies\n".data) ++ ("(deny network*)\n".data)
      ++ ("(allow network* (remote ip \"localhost:".data)
        ++ ((Nat.repr httpProxyPort).data) ++ ("\"))\n".data)
      ++ ("(allow network* (remote ip \"localhost:".data)
        ++ ((Nat.repr socksProxyPort).data) ++ ("\"))\n".data)
      ++ ("\n".data)
    else ("; Network - deny all\n".data) ++ ("(deny network*)\n\n".data)) = some c := by
    cases enableProxy with
    | false =>
      exact parenRun_neutral_append (fun c => rfl) (fun c => rfl)
    | true =>
      intro c
      show parenRun c (("; Network - deny all except proxies\n".data)
        ++ ("(deny network*)\n".data)
        ++ ("(allow network* (remote ip \"localhost:".data)
          ++ ((Nat.repr httpProxyPort).data) ++ ("\"))\n".data)
        ++ ("(allow network* (remote ip \"localhost:".data)
          ++ ((Nat.repr socksProxyPort).data) ++ ("\"))\n".data)
        ++ ("\n".data)) = some c
      rw [parenRun_append, parenRun_append, parenRun_append, parenRun_append,
        parenRun_append, parenRun_append, parenRun_append, parenRun_append]
      rw [show parenRun c (("; Network - deny all except proxies\n".data)) = some c from rfl]
      simp only [Option.some_bind]
      rw [show parenRun c (("(deny network*)\n".data)) = some c from rfl]
      simp only [Option.some_bind]
      rw [show parenRun c (("(allow network* (remote ip \"localhost:".data))
        = some (c + 1 + 1) from rfl]
      simp only [Option.some_bind]
      rw [parenRun_parenFree _ (natRepr_parenFree httpProxyPort) (c + 1 + 1)]
      simp only [Option.some_bind]
      rw [show parenRun (c + 1 + 1) (("\"))\n".data)) = some c from rfl]
      simp only [Option.some_bind]
      rw [show parenRun c (("(allow network* (remote ip \"localhost:".data))
        = some (c + 1 + 1) from rfl]
      simp only [Option.some_bind]
      rw [parenRun_parenFree _ (natRepr_parenFree socksProxyPort) (c + 1 + 1)]
      simp only [Option.some_bind]
      rw [show parenRun (c + 1 + 1) (("\"))\n".data)) = some c from rfl]
      simp only [Option.some_bind]
      rfl
  have hneutral : ∀ c, parenRun c profile = some c := by
    rw [← h2]
    refine parenRun_neutral_append ?_ hua
    refine parenRun_neutral_append ?_ (fun c => rfl)
    refine parenRun_neutral_append ?_ (fun c => rfl)
    refine parenRun_neutral_append ?_ hwd
    refine parenRun_neutral_append ?_ hwa
    refine parenRun_neutral_append ?_ (fun c => rfl)
    refine parenRun_neutral_append ?_ (fun c => rfl)
    refine parenRun_neutral_append ?_ hrd
    refine parenRun_neutral_append ?_ (fun c => rfl)
    refine parenRun_neutral_append ?_ (fun c => rfl)
    refine parenRun_neutral_append ?_ hnet
    refine parenRun_neutral_append ?_ (fun c => rfl)
    refine parenRun_neutral_append ?_ (parenRun_ite_neutral _ _ (fun c => rfl))
    refine parenRun_neutral_append ?_ (parenRun_ite_neutral _ _ (fun c => rfl))
    refine parenRun_neutral_append ?_ (parenRun_ite_neutral _ _ (fun c => rfl))
    refine parenRun_neutral_append ?_ (parenRun_ite_neutral _ _ (fun c => rfl))
    refine parenRun_neutral_append ?_ (fun c => rfl)
    exact parenRun_neutral_append (fun c => rfl) (fun c => rfl)
  have hbal : hasBalancedParentheses profile = true := by
    rw [hasBalancedParentheses, hneutral 0]
    rfl
  have hver : containsSub profile (("(version 1)".data)) = true := by
    rw [← h2]
    repeat apply containsSub_append_left
    decide
  have hdeny : containsSub profile (("(deny ".data)) = true := by
    rw [← h2]
    apply containsSub_append_left
    apply containsSub_append_right
    decide
  rw [validateStaticChecks]
  simp [hver, hbal, hdeny]

/-- C4 witness: a concrete policy with a glob read-deny entry and a literal
write-allow entry, proxy enabled, generates a profile that passes every
static check. -/
theorem GenerateSeatbeltProfile_static_valid_witness :
    (GenerateSeatbeltProfile idNorm 8080 1080 true [("/etc/*".data)] [("/tmp".data)] [] []
        true false false false).map validateStaticChecks = some none := by
  have h := fun profile => GenerateSeatbeltProfile_static_valid idNorm 8080 1080 true
    [("/etc/*".data)] [("/tmp".data)] [] [] true false false false
    (by decide)
    (by
      intro path hm lit hl
      injection hl with h2
      subst h2
      fin_cases hm <;> exact ⟨by decide, by decide⟩)
    profile
  cases hgen : GenerateSeatbeltProfile idNorm 8080 1080 true [("/etc/*".data)]
      [("/tmp".data)] [] [] true false false false with
  | none => exact absurd hgen (by decide)
  | some profile =>
    show some (validateStaticChecks profile) = some none
    rw [h profile hgen]

end SrtGo
